import Mathlib

/-!
Verification development for the RealEstate_Scraper repository.

Strings from the Python source are embedded as `List Char` (`Str` below);
machine floats are embedded as exact rationals (`ℚ`), which agrees with
Python float arithmetic on every concrete value used in a theorem here.
Timestamps are embedded as integer seconds since an arbitrary epoch; the
`isoformat` serialisation of an aware UTC datetime is injective in the
instant, so equality of embedded instants models equality of the produced
ISO strings (sub-second parts play no role in any claim).  Out-of-scope
collaborators (HTTP fetching, BeautifulSoup selector evaluation,
`dateutil` free-form date parsing, `urljoin`) are taken as explicit
function parameters, exactly at the call boundary the source uses them.
-/

namespace RealEstate

/-- Strings of the embedded program. -/
abbrev Str := List Char

/-- Coerce a Lean string literal to the embedded string type. -/
def ofStr (s : String) : Str := s.data

/-! ## Embedding of `src/etl/load_to_postgres.py`, `upsert_df` (claim C1)

`upsert_df` issues, per record,
`INSERT INTO listings (cols) VALUES (...) ON CONFLICT (url) DO UPDATE SET c = EXCLUDED.c`
for every column `c` of the dataframe except `url` (line 148:
`updates = ", ".join([f"{c}=EXCLUDED.{c}" for c in cols if c != "url"])`),
after `df.where(pd.notnull(df), None)` has turned every missing value into
SQL NULL.  The row type below carries exactly the `keep` columns of
`load_jsonl_to_df` (lines 114-117).  Numeric columns are `Option ℚ`
(NULL = `none`), text/date columns are `Option Str`. -/

structure PgRow where
  url : Str
  listing_title : Option Str
  price_php : Option ℚ
  area_sqm : Option ℚ
  price_per_sqm : Option ℚ
  address : Option Str
  bedrooms : Option ℚ
  bathrooms : Option ℚ
  scraped_at : Option Str
  as_of_date : Option Str
  price_currency : Option Str
  price_value : Option ℚ
  deriving DecidableEq, Repr

/-- Postgres `ON CONFLICT (url) DO UPDATE SET c = EXCLUDED.c` for every
non-`url` column: the stored row keeps only its key, every other column is
replaced by the incoming (`EXCLUDED`) value, NULLs included. -/
def pgConflictUpdate (stored incoming : PgRow) : PgRow :=
  { incoming with url := stored.url }

/-- One `INSERT ... ON CONFLICT (url) DO UPDATE` against a table whose rows
are keyed by `url`: update in place on a key hit, append otherwise. -/
def pgUpsertRow (table : List PgRow) (r : PgRow) : List PgRow :=
  if table.any (fun s => s.url = r.url) then
    table.map (fun s => if s.url = r.url then pgConflictUpdate s r else s)
  else
    table ++ [r]

/-- `upsert_df` executes the statement once per record of the dataframe
(chunked transmission does not change the per-row semantics). -/
def pgUpsertAll (table : List PgRow) (records : List PgRow) : List PgRow :=
  records.foldl pgUpsertRow table

/-- Lookup by the natural key, as a reader of the listings table. -/
def pgLookup (table : List PgRow) (u : Str) : Option PgRow :=
  table.find? (fun s => s.url = u)

/-- An all-NULL row with the given key, for building concrete rows. -/
def blankRow (u : Str) : PgRow :=
  ⟨u, none, none, none, none, none, none, none, none, none, none, none⟩

/-- Stored row of the spec scenario: `{price: 100, area: null}`. -/
def c1Stored : PgRow :=
  { blankRow (ofStr "http://a") with price_php := some 100, area_sqm := none }

/-- Incoming row of the spec scenario: `{price: null, area: 50}`. -/
def c1Incoming : PgRow :=
  { blankRow (ofStr "http://a") with price_php := none, area_sqm := some 50 }

/-! ## Embedding of `src/db/supabase_writer.py`, `_normalize_scrape_record`
(claims C2 and C9) and of the `price_php` / `price_per_sqm` derivation of
`src/etl/load_to_postgres.py`, `load_jsonl_to_df` lines 89-100 (claim C2).

A scraped price payload is the dict built by the scraper:
`{raw, currency, value, period}`; missing keys read back as `None` through
`dict.get`, which the `Option` fields model.  `_coerce_num` is `float(x)`
on an already-numeric-or-None value, i.e. the identity on `Option ℚ` here.
Python truthiness of a float (`None` and `0.0` are falsy) is translated
explicitly where the source relies on it. -/

structure PriceDict where
  raw : Str
  currency : Option Str
  value : Option ℚ
  period : Option Str
  deriving DecidableEq, Repr

structure AreaDict where
  raw : Str
  sqm : Option ℚ
  deriving DecidableEq, Repr

/-- One record read back from a staged listings JSONL file, as
`_normalize_scrape_record` consumes it.  `scraped_at` holds the result of
`_parse_iso(rec.get("scraped_at"))`: `none` when the field is absent,
empty or unparsable. -/
structure ScrapeRec where
  url : Str
  title : Option Str
  address : Option Str
  property_type : Option Str
  price : Option PriceDict
  area : Option AreaDict
  scraped_at : Option ℤ
  deriving DecidableEq, Repr

/-- Python whitespace class used by `str.strip()` (ASCII part; no wider
Unicode whitespace occurs in any theorem input). -/
def isPyWs (c : Char) : Bool :=
  c = ' ' ∨ c = '\t' ∨ c = '\n' ∨ c = '\r' ∨ c = '\x0b' ∨ c = '\x0c'

/-- Python `str.strip()`. -/
def stripStr (s : Str) : Str :=
  ((s.dropWhile isPyWs).reverse.dropWhile isPyWs).reverse

/-- Reading `price.get("currency")` where `price = rec.get("price") or {}`. -/
def priceCurrencyOf (p : Option PriceDict) : Option Str := p.bind (fun d => d.currency)

/-- Reading `price.get("period")`. -/
def pricePeriodOf (p : Option PriceDict) : Option Str := p.bind (fun d => d.period)

/-- Reading `price.get("value")`. -/
def priceValueOf (p : Option PriceDict) : Option ℚ := p.bind (fun d => d.value)

/-- Lines 46-48 of `supabase_writer.py`: `price_php` is the coerced value
only when the currency is `"PHP"` and the period is `None` or `"month"`. -/
def pricePhpOf (p : Option PriceDict) : Option ℚ :=
  if priceCurrencyOf p = some (ofStr "PHP") ∧
      (pricePeriodOf p = none ∨ pricePeriodOf p = some (ofStr "month")) then
    priceValueOf p
  else none

/-- Line 51 of `supabase_writer.py`:
`ppsqm = (price_php / area_sqm) if (price_php and area_sqm and area_sqm > 0) else None`.
`price_php and area_sqm` is Python truthiness: `None` and `0.0` are falsy. -/
def ppsqmOf (price_php area_sqm : Option ℚ) : Option ℚ :=
  match price_php, area_sqm with
  | some p, some a => if p ≠ 0 ∧ a ≠ 0 ∧ 0 < a then some (p / a) else none
  | _, _ => none

/-- One row of the `listings` upsert buffer, as built by
`_normalize_scrape_record` (lines 55-68). -/
structure ListingRow where
  url : Str
  listing_title : Option Str
  property_type : Option Str
  address : Option Str
  price_php : Option ℚ
  area_sqm : Option ℚ
  price_per_sqm : Option ℚ
  price_json : Option PriceDict
  area_json : Option AreaDict
  scraped_at : ℤ
  source : Str
  deriving DecidableEq, Repr

/-- `_normalize_scrape_record(rec, source)`: maps one scraped record to a
listings row, also returning the parsed scrape instant for the snapshot.
`now` stands for `datetime.now(timezone.utc)`, used when `scraped_at`
did not parse. -/
def normalizeScrapeRecord (rec : ScrapeRec) (source : Str) (now : ℤ) :
    ListingRow × ℤ :=
  let url := stripStr rec.url
  let price_php := pricePhpOf rec.price
  let area_sqm := rec.area.bind (fun d => d.sqm)
  let ppsqm := ppsqmOf price_php area_sqm
  let scraped_dt := rec.scraped_at.getD now
  (⟨url, rec.title, rec.property_type, rec.address, price_php, area_sqm, ppsqm,
    rec.price, rec.area, scraped_dt, source⟩, scraped_dt)

/-- Lines 89-93 of `load_to_postgres.py`: `price_php` assumes PHP when the
currency is missing (NaN) or equals `"PHP"`, else NULL. -/
def etlPricePhp (price_value : Option ℚ) (price_currency : Option Str) : Option ℚ :=
  if price_currency = none ∨ price_currency = some (ofStr "PHP") then price_value
  else none

/-- Lines 96-100 of `load_to_postgres.py`:
`np.where(price_php.notna() & (area_sqm > 0), price_php / area_sqm, nan)`;
a NaN area compares false, so a missing area yields NULL. -/
def etlPricePerSqm (price_php area_sqm : Option ℚ) : Option ℚ :=
  match price_php, area_sqm with
  | some p, some a => if 0 < a then some (p / a) else none
  | _, _ => none

/-- Scraped record with PHP price 0 and positive area 30, for C2. -/
def c2ZeroPriceRec : ScrapeRec :=
  ⟨ofStr "http://a", none, none, none,
    some ⟨ofStr "0", some (ofStr "PHP"), some 0, none⟩,
    some ⟨ofStr "30 sqm", some 30⟩, none⟩

/-- Scraped record with PHP price 45000 and area 30, for C2's witness. -/
def c2SpecRec : ScrapeRec :=
  ⟨ofStr "http://a", none, none, none,
    some ⟨ofStr "45000", some (ofStr "PHP"), some 45000, none⟩,
    some ⟨ofStr "30 sqm", some 30⟩, none⟩

/-! ## Embedding of `src/db/supabase_writer.py`, class `SupabaseWriter`
(claim C9).

The writer holds a listings buffer and an aligned metadata buffer.  The
whole `try` block of `flush` (listings upsert, snapshot upsert) is one
network round trip; `ok attempt` abstracts whether the round trip at that
attempt number (1-based, as in `range(1, retries + 1)`) succeeds.  A flush
result reports whether the final exception was re-raised (`raise` on the
last attempt), which listings rows were sent in the successful upsert, and
the writer state afterwards. -/

structure WriterCfg where
  batchSize : ℕ
  retries : ℕ
  deriving DecidableEq, Repr

structure WriterState where
  buffer : List ListingRow
  bufferMeta : List (ℤ × Str)
  deriving DecidableEq, Repr

structure FlushResult where
  raised : Bool
  written : List ListingRow
  state : WriterState
  deriving DecidableEq, Repr

/-- First attempt number in `start, start+1, ..., start+cnt-1` at which the
round trip succeeds, mirroring the `for attempt in range(...)` loop. -/
def firstSuccess (ok : ℕ → Bool) (start : ℕ) : ℕ → Option ℕ
  | 0 => none
  | cnt + 1 => if ok start then some start else firstSuccess ok (start + 1) cnt

/-- `SupabaseWriter.flush` (lines 100-159): nothing to do on an empty
buffer; otherwise retry the round trip up to `retries` times, clearing
both buffers exactly on success and re-raising (buffers untouched) when
the last attempt fails.  With `retries = 0` the Python loop body never
runs, so the method returns silently with the buffer kept. -/
def flushWriter (ok : ℕ → Bool) (cfg : WriterCfg) (st : WriterState) : FlushResult :=
  if st.buffer = [] then ⟨false, [], st⟩
  else
    match firstSuccess ok 1 cfg.retries with
    | some _ => ⟨false, st.buffer, ⟨[], []⟩⟩
    | none => if cfg.retries = 0 then ⟨false, [], st⟩ else ⟨true, [], st⟩

/-- `SupabaseWriter.add_scrape_record` (lines 84-89): normalize, append to
both buffers, and flush when the buffer length has reached the batch
size. -/
def addScrapeRecord (ok : ℕ → Bool) (cfg : WriterCfg) (st : WriterState)
    (rec : ScrapeRec) (source : Str) (now : ℤ) : FlushResult :=
  let nr := normalizeScrapeRecord rec source now
  let st' : WriterState :=
    ⟨st.buffer ++ [nr.1], st.bufferMeta ++ [(nr.2, source)]⟩
  if cfg.batchSize ≤ st'.buffer.length then flushWriter ok cfg st'
  else ⟨false, [], st'⟩

/-- `SupabaseWriter.close` (lines 161-162) just flushes. -/
def closeWriter (ok : ℕ → Bool) (cfg : WriterCfg) (st : WriterState) : FlushResult :=
  flushWriter ok cfg st

/-! ## Embedding of the area normalizers (claim C6):
`PropertyScraper._normalize_area` (`property_scraper.py` lines 530-536) and
the text branch of `_coerce_area_sqm` (`load_to_postgres.py` lines 46-61).

The regular expressions are embedded as direct scanners.  For each pattern
used here the character classes of adjacent pieces are disjoint (digits /
whitespace / unit letters), so the greedy left-to-right scan without
backtracking computes exactly the Python `re.search` match. -/

/-- Decidable equality for embedded raising computations. -/
instance {ε α : Type} [DecidableEq ε] [DecidableEq α] : DecidableEq (Except ε α) :=
  fun x y =>
    match x, y with
    | .ok a, .ok b =>
        if h : a = b then isTrue (by rw [h]) else isFalse (by simp [h])
    | .error a, .error b =>
        if h : a = b then isTrue (by rw [h]) else isFalse (by simp [h])
    | .ok _, .error _ => isFalse (by simp)
    | .error _, .ok _ => isFalse (by simp)

/-- Python `str.lower()` on the ASCII letters (the only cased characters
these patterns meet). -/
def lowc (c : Char) : Char := c.toLower

/-- Case-insensitive prefix test (`re.I` literals). -/
def startsWithCI : Str → Str → Bool
  | [], _ => true
  | _ :: _, [] => false
  | p :: ps, c :: cs => lowc p = lowc c ∧ startsWithCI ps cs

/-- Character class `[\d,.]` of the `_normalize_area` pattern. -/
def isDigitCommaDot (c : Char) : Bool := c.isDigit ∨ c = ',' ∨ c = '.'

/-- Mojibake fix of `_clean_text`: `s.replace("â‚±", "₱")`. -/
def fixPeso : Str → Str
  | 'â' :: '‚' :: '±' :: rest => '₱' :: fixPeso rest
  | c :: rest => c :: fixPeso rest
  | [] => []

/-- Whitespace collapsing of `_clean_text`: `re.sub(r"\s+", " ", s)`. -/
def collapseWsAux : Str → Bool → Str
  | [], _ => []
  | c :: rest, prevWs =>
    if isPyWs c then
      if prevWs then collapseWsAux rest true else ' ' :: collapseWsAux rest true
    else c :: collapseWsAux rest false

/-- `PropertyScraper._clean_text` (lines 921-929): strip, fix the peso
mojibake, collapse whitespace runs to a single space.  Empty input is
returned unchanged. -/
def cleanText (s : Str) : Str :=
  if s = [] then s else collapseWsAux (fixPeso (stripStr s)) false

/-- Unit alternative `sq\.? m` (letters case-insensitive, one literal
space) of the `_normalize_area` pattern. -/
def sqSpaceM : Str → Bool
  | s :: q :: rest =>
      (lowc s == 's') && (lowc q == 'q') &&
        (match rest with
          | '.' :: ' ' :: m :: _ => lowc m == 'm'
          | ' ' :: m :: _ => lowc m == 'm'
          | _ => false)
  | _ => false

/-- Unit alternation `(sqm|m²|sq\.? m)` of `_normalize_area`. -/
def normAreaUnit (r : Str) : Bool :=
  startsWithCI (ofStr "sqm") r ∨ startsWithCI (ofStr "m²") r ∨ sqSpaceM r

/-- Match of `([\d,.]+)\s*(sqm|m²|sq\.? m)` anchored at the head of `s`,
returning group 1. -/
def normAreaMatchAt (s : Str) : Option Str :=
  let g := s.takeWhile isDigitCommaDot
  if g = [] then none
  else if normAreaUnit ((s.drop g.length).dropWhile isPyWs) then some g
  else none

/-- `re.search` of the `_normalize_area` pattern: leftmost match wins. -/
def normAreaSearch : Str → Option Str
  | [] => none
  | c :: rest =>
    match normAreaMatchAt (c :: rest) with
    | some g => some g
    | none => normAreaSearch rest

/-- Digit string to a natural number (`int` of a digit run). -/
def natOfDigits (s : Str) : ℕ :=
  s.foldl (fun n c => n * 10 + (c.toNat - 48)) 0

/-- Python `float()` on the strings these call sites produce: a run of
digits with at most one `'.'`; every other shape raises `ValueError`
(`none`). -/
def pythonFloat (s : Str) : Option ℚ :=
  let intPart := s.takeWhile Char.isDigit
  match s.drop intPart.length with
  | [] => if intPart = [] then none else some (Rat.divInt (natOfDigits intPart) 1)
  | '.' :: frac =>
      if frac.all Char.isDigit ∧ (intPart ≠ [] ∨ frac ≠ []) then
        some (Rat.divInt (natOfDigits intPart * 10 ^ frac.length + natOfDigits frac)
          (10 ^ frac.length))
      else none
  | _ => none

/-- `PropertyScraper._normalize_area`: `None` for falsy input; a raw-only
dict when the pattern finds no square-meter unit (note: no square-feet
alternative exists in this pattern, so no conversion ever happens here);
`float` of the de-commaed group as `sqm` otherwise.  The uncaught
`ValueError` of `float` is the `error` case. -/
def normalizeArea (raw : Option Str) : Except Unit (Option AreaDict) :=
  match raw with
  | none => .ok none
  | some r =>
    if r = [] then .ok none
    else
      let txt := cleanText r
      match normAreaSearch txt with
      | none => .ok (some ⟨txt, none⟩)
      | some g =>
        match pythonFloat (g.filter (fun c => ¬ c = ',')) with
        | some v => .ok (some ⟨txt, some v⟩)
        | none => .error ()

/-- Number group `(\d+(?:[\.,]\d+)?)` of the `_coerce_area_sqm` patterns,
anchored at the head. -/
def coerceNumGroupAt (s : Str) : Option Str :=
  let d := s.takeWhile Char.isDigit
  if d = [] then none
  else
    match s.drop d.length with
    | c :: t =>
      if c = '.' ∨ c = ',' then
        let d2 := t.takeWhile Char.isDigit
        if d2 = [] then some d else some (d ++ c :: d2)
      else some d
    | [] => some d

/-- Tail `\.?\s*m(?:eters?)?` after a case-insensitive `sq`, for the
`sq\.?\s*m(?:eters?)?` alternative. -/
def sqTailM (r : Str) : Bool :=
  let r1 := match r with
    | '.' :: t => t
    | _ => r
  match r1.dropWhile isPyWs with
  | m :: _ => lowc m = 'm'
  | [] => false

/-- Unit alternation `(?:m²|m2|sqm|sq\.?\s*m(?:eters?)?)` of the
square-meter pattern in `_coerce_area_sqm`. -/
def coerceSqmUnit (r : Str) : Bool :=
  startsWithCI (ofStr "m²") r || startsWithCI (ofStr "m2") r ||
    startsWithCI (ofStr "sqm") r ||
    (match r with
      | s :: q :: rest => (lowc s == 's') && (lowc q == 'q') && sqTailM rest
      | _ => false)

/-- Tail `\.?\s*ft` after a case-insensitive `sq`. -/
def sqTailFt (r : Str) : Bool :=
  let r1 := match r with
    | '.' :: t => t
    | _ => r
  match r1.dropWhile isPyWs with
  | f :: t :: _ => lowc f = 'f' ∧ lowc t = 't'
  | _ => false

/-- Tail `\s*feet` after a case-insensitive `square`. -/
def squareTailFeet (r : Str) : Bool :=
  startsWithCI (ofStr "feet") (r.dropWhile isPyWs)

/-- Unit alternation `(?:sq\.?\s*ft|ft²|ft2|square\s*feet)` of the
square-feet pattern in `_coerce_area_sqm`. -/
def coerceFtUnit (r : Str) : Bool :=
  (match r with
    | s :: q :: rest => (lowc s == 's') && (lowc q == 'q') &&
        (if startsWithCI (ofStr "uare") rest then squareTailFeet (rest.drop 4)
          else sqTailFt rest)
    | _ => false) ||
  startsWithCI (ofStr "ft²") r || startsWithCI (ofStr "ft2") r

/-- Match of number-then-unit anchored at the head, returning group 1. -/
def coerceMatchAt (unitTest : Str → Bool) (s : Str) : Option Str :=
  match coerceNumGroupAt s with
  | none => none
  | some g => if unitTest ((s.drop g.length).dropWhile isPyWs) then some g else none

/-- `re.search` for a `_coerce_area_sqm` pattern. -/
def coerceSearch (unitTest : Str → Bool) : Str → Option Str
  | [] => none
  | c :: rest =>
    match coerceMatchAt unitTest (c :: rest) with
    | some g => some g
    | none => coerceSearch unitTest rest

/-- Square-feet to square-meter factor `0.092903` of `_coerce_area_sqm`. -/
def sqftFactor : ℚ := Rat.divInt 92903 1000000

/-- Exact product of two rationals, written on the normalized fields so
that it evaluates inside the kernel (`Rat.divInt` renormalizes). -/
def ratMul (a b : ℚ) : ℚ := Rat.divInt (a.num * b.num) (a.den * b.den)

/-- Integer `⌊100 q + 1/2⌋`, computed on the normalized fields of `q`
(the denominator is positive, so Euclidean division is the floor). -/
def halfUp100 (q : ℚ) : ℤ := Int.ediv (200 * q.num + (q.den : ℤ)) (2 * (q.den : ℤ))

/-- Python `round(x, 2)` for the non-tie values arising here (Python uses
banker's rounding on the float ties, which none of our values hit):
round-half-up on the second decimal. -/
def round2 (q : ℚ) : ℚ := Rat.divInt (halfUp100 q) 100

/-- Text branch of `_coerce_area_sqm` (lines 48-62): first the
square-meter pattern (value taken verbatim), then the square-feet pattern
(value × 0.092903, rounded to 2 decimals), else NaN (`none`); `float`
failures are caught and yield NaN. -/
def coerceAreaSqmText (x : Str) : Option ℚ :=
  match coerceSearch coerceSqmUnit x with
  | some g => pythonFloat (g.filter (fun c => ¬ c = ','))
  | none =>
    match coerceSearch coerceFtUnit x with
    | some g => (pythonFloat (g.filter (fun c => ¬ c = ','))).map
        (fun v => round2 (ratMul v sqftFactor))
    | none => none

/-! ## Embedding of `PropertyScraper._normalize_price`
(`property_scraper.py` lines 518-528, claim C10).

Pattern: `(?:₱|Php)\s*([\d,]+)(?:\s*/\s*(month|mo|year|yr|day))?` with
`re.I`.  Again the adjacent pieces have disjoint character classes, so a
greedy scan equals the `re.search` result. -/

/-- Character class `[\d,]`. -/
def isDigitComma (c : Char) : Bool := c.isDigit ∨ c = ','

/-- The `(?:₱|Php)` alternation (case-insensitive), returning the rest on
a hit at the head. -/
def pesoPrefix (s : Str) : Option Str :=
  match s with
  | '₱' :: r => some r
  | a :: b :: c :: r =>
      if lowc a = 'p' ∧ lowc b = 'h' ∧ lowc c = 'p' then some r else none
  | _ => none

/-- The optional `(?:\s*/\s*(month|mo|year|yr|day))?` part; returns the
lower-cased captured keyword (`m.group(2).lower()` is applied right after
the match in the source). -/
def periodGroup (r : Str) : Option Str :=
  match r.dropWhile isPyWs with
  | '/' :: r2 =>
    let r3 := r2.dropWhile isPyWs
    if startsWithCI (ofStr "month") r3 then some (ofStr "month")
    else if startsWithCI (ofStr "mo") r3 then some (ofStr "mo")
    else if startsWithCI (ofStr "year") r3 then some (ofStr "year")
    else if startsWithCI (ofStr "yr") r3 then some (ofStr "yr")
    else if startsWithCI (ofStr "day") r3 then some (ofStr "day")
    else none
  | _ => none

/-- Match of the price pattern anchored at the head: groups 1 and 2. -/
def priceMatchAt (s : Str) : Option (Str × Option Str) :=
  match pesoPrefix s with
  | none => none
  | some r1 =>
    let r2 := r1.dropWhile isPyWs
    let g := r2.takeWhile isDigitComma
    if g = [] then none
    else some (g, periodGroup (r2.drop g.length))

/-- `re.search` of the price pattern. -/
def priceSearch : Str → Option (Str × Option Str)
  | [] => none
  | c :: rest =>
    match priceMatchAt (c :: rest) with
    | some m => some m
    | none => priceSearch rest

/-- `PropertyScraper._normalize_price`: `None` exactly on falsy input; a
raw-only dict when the pattern misses; otherwise
`{raw, currency: "PHP", value, period}` with `mo`/`yr` canonicalised.
`float(m.group(1).replace(",", ""))` raises `ValueError` (the `error`
case) when group 1 is made of commas only. -/
def normalizePrice (raw : Option Str) : Except Unit (Option PriceDict) :=
  match raw with
  | none => .ok none
  | some r =>
    if r = [] then .ok none
    else
      let txt := cleanText r
      match priceSearch txt with
      | none => .ok (some ⟨txt, none, none, none⟩)
      | some (g, per) =>
        match pythonFloat (g.filter (fun c => ¬ c = ',')) with
        | none => .error ()
        | some v =>
          let period := per.map (fun p =>
            if p = ofStr "mo" then ofStr "month"
            else if p = ofStr "yr" then ofStr "year" else p)
          .ok (some ⟨txt, some (ofStr "PHP"), some v, period⟩)

/-! ## Embedding of the relative-date machinery (claim C7):
`REL_RE` (`property_scraper.py` lines 22-30) and
`PropertyScraper._parse_published_at` (lines 542-565). -/

/-- Number group of the `\d+(?:\.\d+)?` shape (used by the direct price
path of `_parse_listing` as well). -/
def digitsDotGroupAt (s : Str) : Str :=
  let d := s.takeWhile Char.isDigit
  match s.drop d.length with
  | '.' :: t =>
    let d2 := t.takeWhile Char.isDigit
    if d2 = [] then d else d ++ '.' :: d2
  | _ => d

/-- Case-insensitive substring test (Python `pat in s.lower()`,
`pat` already lower-case). -/
def containsSubCI (pat : Str) : Str → Bool
  | [] => startsWithCI pat []
  | c :: rest => startsWithCI pat (c :: rest) || containsSubCI pat rest

/-- One `unit[s]?` literal of `REL_RE` (case-insensitive, optional
trailing `s`), returning the rest after it. -/
def relUnitAt (kw : Str) (s : Str) : Option Str :=
  if startsWithCI kw s then
    match s.drop kw.length with
    | c :: t => if lowc c = 's' then some t else some (c :: t)
    | [] => some []
  else none

/-- One optional `(?:(\d+)\s*unit[s]?)?` group of `REL_RE`: the captured
number and the rest on participation, untouched input otherwise. -/
def relGroupOpt (kw : Str) (s : Str) : Option ℕ × Str :=
  let d := s.takeWhile Char.isDigit
  if d = [] then (none, s)
  else
    match relUnitAt kw ((s.drop d.length).dropWhile isPyWs) with
    | some rest => (some (natOfDigits d), rest)
    | none => (none, s)

/-- The `\s*,?\s*` separator of `REL_RE`. -/
def relSep (s : Str) : Str :=
  match s.dropWhile isPyWs with
  | ',' :: t => t.dropWhile isPyWs
  | r => r

/-- Group plus trailing separator. -/
def relStep (kw : Str) (s : Str) : Option ℕ × Str :=
  let gr := relGroupOpt kw s
  (gr.1, relSep gr.2)

/-- The six named groups of `REL_RE`. -/
structure RelParts where
  years : Option ℕ
  months : Option ℕ
  weeks : Option ℕ
  days : Option ℕ
  hours : Option ℕ
  minutes : Option ℕ
  deriving DecidableEq, Repr

/-- Match of the whole `REL_RE` anchored at the head: the six optional
groups in order, each followed by `\s*,?\s*` (only `\s*` after the
minutes group), then the literal `ago`. -/
def relMatchAt (s : Str) : Option RelParts :=
  let y := relStep (ofStr "year") s
  let mo := relStep (ofStr "month") y.2
  let w := relStep (ofStr "week") mo.2
  let d := relStep (ofStr "day") w.2
  let h := relStep (ofStr "hour") d.2
  let mi := relGroupOpt (ofStr "minute") h.2
  if startsWithCI (ofStr "ago") (mi.2.dropWhile isPyWs) then
    some ⟨y.1, mo.1, w.1, d.1, h.1, mi.1⟩
  else none

/-- `REL_RE.search`. -/
def relSearch : Str → Option RelParts
  | [] => relMatchAt []
  | c :: rest =>
    match relMatchAt (c :: rest) with
    | some p => some p
    | none => relSearch rest

/-- The `timedelta` of `_parse_published_at` in seconds:
`days + weeks*7 + months*30 + years*365` days plus hours and minutes,
with non-participating groups defaulted to 0
(`m.groupdict(default="0")`). -/
def relDeltaSecs (p : RelParts) : ℤ :=
  86400 * ((p.days.getD 0 : ℤ) + (p.weeks.getD 0 : ℤ) * 7 +
      (p.months.getD 0 : ℤ) * 30 + (p.years.getD 0 : ℤ) * 365) +
    3600 * (p.hours.getD 0 : ℤ) + 60 * (p.minutes.getD 0 : ℤ)

/-- `PropertyScraper._parse_published_at`: `None` on falsy input; on a
relative match, `now` minus the approximated delta; otherwise
`dateutil.parser.parse` (the collaborator `dtp`, `none` meaning its
exception, caught and turned into `None`). -/
def parsePublishedAt (now : ℤ) (dtp : Str → Option ℤ) (text : Option Str) :
    Option ℤ :=
  match text with
  | none => none
  | some t0 =>
    if t0 = [] then none
    else
      let t := stripStr t0
      match relSearch t with
      | some parts => some (now - relDeltaSecs parts)
      | none => dtp t

/-! ## Embedding of `PropertyScraper._parse_listing`
(`property_scraper.py` lines 605-830) and
`PropertyScraper.detail_extraction_stage` (lines 835-902), claims C7, C8.

`_parse_listing` reads the fetched page only through BeautifulSoup
queries; the `Soup` structure below carries the result of each query the
function makes, at the exact boundary of the collaborator:
`titleText`/`priceText`/`addressText`/`descriptionText`/`pubDomText` are
the `_first_text` results over the respective selector lists (`none`, or
the normalized non-empty hit), `pubAttrText` the `_first_attr_or_text`
result, `fullText` is `soup.get_text(" ", strip=True)`, and `ldNodes` is
the `_iter_nodes` flattening (document order) of the parsed JSON-LD
blocks.  JSON scalars carry their `str()` form plus their Python
truthiness. -/

structure LdScalar where
  txt : Str
  truthy : Bool
  deriving DecidableEq, Repr

structure LdOffers where
  price : Option LdScalar
  priceCurrency : Option LdScalar
  deriving DecidableEq, Repr

/-- A JSON-LD `@type` value: a JSON string or a JSON list of strings. -/
inductive PropType where
  | s (v : Str)
  | l (v : List Str)
  deriving DecidableEq, Repr

structure LdNode where
  typeRaw : Option PropType
  datePublished : Option Str
  datePosted : Option Str
  dateCreated : Option Str
  uploadDate : Option Str
  pubDate : Option Str
  price : Option LdScalar
  priceCurrency : Option LdScalar
  offers : Option LdOffers
  category : Option Str
  deriving DecidableEq, Repr

/-- A JSON-LD node with no recognised keys (`{}` in the source's
`or {}` fallbacks). -/
def emptyLdNode : LdNode :=
  ⟨none, none, none, none, none, none, none, none, none, none⟩

/-- The `@type` test of `_find_first`: skip falsy `@type`; a list type
matches when it meets the sought names, a string type when it is one of
them. -/
def ldTypeMatch (sought : List Str) (n : LdNode) : Bool :=
  match n.typeRaw with
  | none => false
  | some (.s v) => if v = [] then false else sought.contains v
  | some (.l vs) => if vs = [] then false else vs.any (fun t => sought.contains t)

/-- `_find_first(blocks, *types)` over the flattened node order. -/
def findFirstNode (nodes : List LdNode) (sought : List Str) : Option LdNode :=
  nodes.find? (ldTypeMatch sought)

structure Soup where
  titleText : Option Str
  priceText : Option Str
  fullText : Str
  addressText : Option Str
  descriptionText : Option Str
  pubAttrText : Option Str
  pubDomText : Option Str
  ldNodes : List LdNode
  deriving DecidableEq, Repr

/-- The final payload of `_parse_listing` (lines 819-830). -/
structure Listing where
  url : Str
  title : Option Str
  address : Option Str
  property_type : Option PropType
  description : Option Str
  price : Option PriceDict
  area : Option AreaDict
  published_at_text : Option Str
  published_at : Option ℤ
  scraped_at : ℤ
  deriving DecidableEq, Repr

/-- `_norm_txt`: replace non-breaking spaces, strip. -/
def normTxtS (s : Str) : Str :=
  stripStr (s.map (fun c => if c = '\u00A0' then ' ' else c))

/-- First `(\d+(?:\.\d+)?)` in the text, as a float (`val` of the direct
price path, lines 720-722). -/
def numSearchQ : Str → Option ℚ
  | [] => none
  | c :: rest =>
    if c.isDigit then pythonFloat (digitsDotGroupAt (c :: rest))
    else numSearchQ rest

/-- Direct-selector price dict (lines 719-725): raw keeps the original
text; currency is `"PHP"` exactly when the original text has `₱` or a
case-insensitive `php`; period is `"month"` exactly when the de-commaed
normalized text contains it. -/
def domPrice (pt : Str) : PriceDict :=
  let txt := (normTxtS pt).filter (fun c => ¬ c = ',')
  ⟨pt,
    (if pt.contains '₱' || containsSubCI (ofStr "php") pt
      then some (ofStr "PHP") else none),
    numSearchQ txt,
    (if containsSubCI (ofStr "month") txt then some (ofStr "month") else none)⟩

/-- Unit alternation `(sqm|m2|m²)` of the listing-page area pattern,
returning the matched length. -/
def listingAreaUnitLen (r : Str) : Option ℕ :=
  if startsWithCI (ofStr "sqm") r then some 3
  else if startsWithCI (ofStr "m2") r then some 2
  else if startsWithCI (ofStr "m²") r then some 2
  else none

/-- Match of `(\d[\d,\.]*)\s*(sqm|m2|m²)` anchored at the head:
(whole match, group 1). -/
def listingAreaMatchAt (s : Str) : Option (Str × Str) :=
  match s with
  | c :: rest =>
    if c.isDigit then
      let g1 := c :: rest.takeWhile isDigitCommaDot
      let ws := (s.drop g1.length).takeWhile isPyWs
      match listingAreaUnitLen (s.drop (g1.length + ws.length)) with
      | some ul => some (s.take (g1.length + ws.length + ul), g1)
      | none => none
    else none
  | [] => none

/-- `re.search` of the listing-page area pattern. -/
def listingAreaSearch : Str → Option (Str × Str)
  | [] => none
  | c :: rest =>
    match listingAreaMatchAt (c :: rest) with
    | some m => some m
    | none => listingAreaSearch rest

/-- Area step of `_parse_listing` (lines 728-735): raw is the whole
match, `sqm` the de-commaed float; a `float` failure nulls the whole
dict. -/
def listingArea (fullText : Str) : Option AreaDict :=
  match listingAreaSearch fullText with
  | none => none
  | some (g0, g1) =>
    match pythonFloat (g1.filter (fun c => ¬ c = ',')) with
    | some v => some ⟨g0, some v⟩
    | none => none

/-- `\d{1,2}\s+[A-Za-z]{3,}\s+\d{4}` anchored at the head with `k`
leading digits taken. -/
def absDateTryLen (k : ℕ) (s : Str) : Option Str :=
  let d := s.take k
  if d.length = k ∧ d.all Char.isDigit then
    let r1 := s.drop k
    let ws1 := r1.takeWhile isPyWs
    if ws1 = [] then none
    else
      let r2 := r1.drop ws1.length
      let al := r2.takeWhile Char.isAlpha
      if al.length < 3 then none
      else
        let r3 := r2.drop al.length
        let ws2 := r3.takeWhile isPyWs
        if ws2 = [] then none
        else
          let r4 := r3.drop ws2.length
          let d4 := r4.take 4
          if d4.length = 4 ∧ d4.all Char.isDigit then
            some (d ++ ws1 ++ al ++ ws2 ++ d4)
          else none
  else none

/-- The greedy `{1,2}` quantifier: two digits first, then one. -/
def absDateAt (s : Str) : Option Str :=
  match absDateTryLen 2 s with
  | some g => some g
  | none => absDateTryLen 1 s

/-- `re.search` of the leading-date-token pattern of `_parse_listing`
(line 770). -/
def absDateSearch : Str → Option Str
  | [] => none
  | c :: rest =>
    match absDateAt (c :: rest) with
    | some g => some g
    | none => absDateSearch rest

/-- Key scan of the JSON-LD date fallback (lines 783-792): first truthy
value that the collaborator parser accepts wins; parser exceptions fall
through to the next key. -/
def ldDateScan (dtp : Str → Option ℤ) : List (Option Str) → Option (Str × ℤ)
  | [] => none
  | none :: rest => ldDateScan dtp rest
  | some v :: rest =>
    if v = [] then ldDateScan dtp rest
    else
      match dtp v with
      | some t => some (v, t)
      | none => ldDateScan dtp rest

/-- Word character of the regex `\b` boundary. -/
def isWordChar (c : Char) : Bool := c.isAlphanum ∨ c = '_'

/-- `re.search(r"\boffice|serviced office|commercial\b", full_text, re.I)`
as a Boolean: the scan tracks the previous character for the left
boundary of `\boffice` and checks the right boundary of `commercial\b`. -/
def officeScan (prev : Option Char) : Str → Bool
  | [] => false
  | c :: rest =>
    ((match prev with
      | none => true
      | some p => ! isWordChar p) && startsWithCI (ofStr "office") (c :: rest)) ||
    startsWithCI (ofStr "serviced office") (c :: rest) ||
    (startsWithCI (ofStr "commercial") (c :: rest) &&
      (match (c :: rest).drop 10 with
        | d :: _ => ! isWordChar d
        | [] => true)) ||
    officeScan (some c) rest

/-- Python `A or B` on JSON scalars (`A` kept when truthy). -/
def scalarOr (a b : Option LdScalar) : Option LdScalar :=
  match a with
  | some x => if x.truthy then some x else b
  | none => b

/-- `PropertyScraper._parse_listing`.  `now` is
`datetime.now(timezone.utc)`; `dtp` is `dateutil.parser.parse ∘ astimezone`
(plain, used on JSON-LD dates), `dtpDayfirst` the `dayfirst=True` variant
used on the DOM date token; `none` stands for their caught exceptions.
The function is total: every input yields a payload dict. -/
def parseListing (now : ℤ) (dtp dtpDayfirst : Str → Option ℤ) (soup : Soup)
    (url : Str) : Listing :=
  let title := soup.titleText
  let price0 : Option PriceDict :=
    match soup.priceText with
    | none => none
    | some pt => if pt = [] then none else some (domPrice pt)
  let area := listingArea soup.fullText
  let ptext0 : Option Str :=
    match soup.pubAttrText with
    | some t => if t = [] then soup.pubDomText else some t
    | none => soup.pubDomText
  let pat0 : Option ℤ :=
    match ptext0 with
    | none => none
    | some pt =>
      if pt = [] then none
      else
        match absDateSearch pt with
        | some g => dtpDayfirst g
        | none => none
  let blocks := soup.ldNodes
  let ldDate : Option (Str × ℤ) :=
    match ptext0 with
    | some t => if t = [] then
        (let node := (findFirstNode blocks [ofStr "Offer", ofStr "Product",
            ofStr "NewsArticle", ofStr "Article", ofStr "CreativeWork"]).getD emptyLdNode
         ldDateScan dtp [node.datePublished, node.datePosted, node.dateCreated,
            node.uploadDate, node.pubDate])
      else none
    | none =>
      let node := (findFirstNode blocks [ofStr "Offer", ofStr "Product",
          ofStr "NewsArticle", ofStr "Article", ofStr "CreativeWork"]).getD emptyLdNode
      ldDateScan dtp [node.datePublished, node.datePosted, node.dateCreated,
        node.uploadDate, node.pubDate]
  let ptext : Option Str :=
    match ldDate with
    | some (v, _) => some v
    | none => ptext0
  let pat : Option ℤ :=
    match ldDate with
    | some (_, t) => some t
    | none => pat0
  let product := (findFirstNode blocks
    [ofStr "Product", ofStr "Offer", ofStr "RealEstateAgent"]).getD emptyLdNode
  let ptype0 : Option PropType :=
    match product.category with
    | some c => if c = [] then product.typeRaw else some (.s c)
    | none => product.typeRaw
  let ptypeFalsy : Bool :=
    match ptype0 with
    | none => true
    | some (.s v) => v = []
    | some (.l v) => v = []
  let ptype : Option PropType :=
    if ptypeFalsy ∧ officeScan none soup.fullText then some (.s (ofStr "Offices"))
    else ptype0
  let needsLdPrice : Bool :=
    match price0 with
    | none => true
    | some p => p.value = none
  let price : Option PriceDict :=
    if needsLdPrice then
      let offer := (findFirstNode blocks [ofStr "Offer"]).getD emptyLdNode
      let jdPrice : Option LdScalar :=
        match offer.offers with
        | some o => scalarOr offer.price o.price
        | none => offer.price
      let jdCurrency : Option LdScalar :=
        match offer.offers with
        | some o => scalarOr offer.priceCurrency o.priceCurrency
        | none => offer.priceCurrency
      match jdPrice with
      | some x =>
        if x.truthy then
          some ⟨(match price0 with
                  | some p => if p.raw = [] then x.txt else p.raw
                  | none => x.txt),
                (match price0.bind (fun p => p.currency) with
                  | some c => if c = [] then jdCurrency.map (fun y => y.txt) else some c
                  | none => jdCurrency.map (fun y => y.txt)),
                pythonFloat (x.txt.filter (fun c => ¬ c = ',')),
                price0.bind (fun p => p.period)⟩
        else price0
      | none => price0
    else price0
  ⟨url, title, soup.addressText, ptype, soup.descriptionText, price, area,
    ptext, pat, now⟩

/-- A per-URL failure record of the failure ledger. -/
structure Failure where
  url : Str
  reason : Str
  deriving DecidableEq, Repr

/-- Staged output of one detail-extraction run: the listings written to
`<portal>_listings.jsonl` and the failure-ledger rows, both in loop
order. -/
structure StageResult where
  written : List Listing
  fails : List Failure
  deriving DecidableEq, Repr

/-- `PropertyScraper.detail_extraction_stage`, one URL: no HTML means a
`no_html` ledger row; a parsed dict is always truthy (its
`parse_returned_none` branch is dead, `_parse_listing` being total); a
falsy title means a `missing_title` ledger row and a dropped record;
otherwise the record is written. -/
def detailStep (fetch : Str → Option Soup) (now : ℤ)
    (dtp dtpDayfirst : Str → Option ℤ) (u : Str) : StageResult :=
  match fetch u with
  | none => ⟨[], [⟨u, ofStr "no_html"⟩]⟩
  | some soup =>
    let listing := parseListing now dtp dtpDayfirst soup u
    match listing.title with
    | none => ⟨[], [⟨u, ofStr "missing_title"⟩]⟩
    | some t =>
      if t = [] then ⟨[], [⟨u, ofStr "missing_title"⟩]⟩
      else ⟨[listing], []⟩

/-- `PropertyScraper.detail_extraction_stage` over the URL list. -/
def detailStage (fetch : Str → Option Soup) (now : ℤ)
    (dtp dtpDayfirst : Str → Option ℤ) : List Str → StageResult
  | [] => ⟨[], []⟩
  | u :: rest =>
    let hd := detailStep fetch now dtp dtpDayfirst u
    let tl := detailStage fetch now dtp dtpDayfirst rest
    ⟨hd.written ++ tl.written, hd.fails ++ tl.fails⟩

/-! ## Embedding of `src/utils/canonical.py` (claim C3)

`canonicalize(url)` is
`f"{pu.scheme}://{pu.netloc}{pu.path}".rstrip("/")` over
`pu = urllib.parse.urlparse(url)` (identical code appears as
`PropertyScraper._canonicalize_url`).  The collaborator `urlparse` is
CPython's: the model below follows `urllib.parse.urlsplit` /
`_splitparams` of the 3.10+ standard library: left-strip of C0-control-
or-space characters, removal of every tab/CR/LF, scheme extraction
(first-char ASCII letter, all chars in `scheme_chars`, lower-cased),
`//`-netloc extraction up to `/?#` with the unbalanced-square-bracket
`ValueError` (the `none` result; the deeper bracketed-host validation of
newer CPython is not modelled — every theorem input is bracket-free),
fragment then query split, and the params split off the path's last
segment.  Python `str.lower()` agrees with the ASCII `lowerChar` below on
validated scheme characters. -/

def isC0OrSpace (c : Char) : Bool := c.toNat ≤ 32

def isUnsafeUrlChar (c : Char) : Bool := c = '\t' ∨ c = '\r' ∨ c = '\n'

/-- The `lstrip` of C0-or-space then removal of tab/CR/LF that CPython
applies to the url before splitting. -/
def preprocessUrl (u : Str) : Str :=
  (u.dropWhile isC0OrSpace).filter (fun c => ¬ isUnsafeUrlChar c = true)

def asciiUpper (c : Char) : Bool := 65 ≤ c.toNat ∧ c.toNat ≤ 90

def asciiLower (c : Char) : Bool := 97 ≤ c.toNat ∧ c.toNat ≤ 122

def asciiAlpha (c : Char) : Bool := asciiUpper c || asciiLower c

def asciiDigit (c : Char) : Bool := 48 ≤ c.toNat ∧ c.toNat ≤ 57

/-- `scheme_chars` of `urllib.parse`. -/
def schemeChar (c : Char) : Bool :=
  asciiAlpha c || asciiDigit c || c = '+' || c = '-' || c = '.'

/-- ASCII lower-casing, as `str.lower()` acts on validated scheme text. -/
def lowerChar (c : Char) : Char :=
  if asciiUpper c then Char.ofNat (c.toNat + 32) else c

def headAlpha (u : Str) : Bool :=
  match u with
  | c :: _ => asciiAlpha c
  | [] => false

/-- Scheme extraction of `urlsplit`: chars before the first `':'`, valid
when that prefix is non-empty, a colon exists, the first character is an
ASCII letter and every prefix character is a scheme character. -/
def splitScheme (u : Str) : Str × Str :=
  let pre := u.takeWhile (fun c => ¬ c = ':')
  if pre.length < u.length ∧ headAlpha u ∧ pre.all schemeChar ∧ 0 < pre.length then
    (pre.map lowerChar, u.drop (pre.length + 1))
  else ([], u)

def netlocDelim (c : Char) : Bool := c = '/' ∨ c = '?' ∨ c = '#'

/-- `_splitnetloc` plus the unbalanced-bracket `ValueError` check; the
`Bool` records whether the `//` branch was taken. -/
def splitNetloc (u : Str) : Option (Str × Str × Bool) :=
  match u with
  | '/' :: '/' :: rest =>
    let n := rest.takeWhile (fun c => ¬ netlocDelim c = true)
    if (n.contains '[' ∧ ¬ n.contains ']') ∨ (n.contains ']' ∧ ¬ n.contains '[') then
      none
    else some (n, rest.drop n.length, true)
  | _ => some ([], u, false)

/-- `url.split(d, 1)` when `d` occurs, `(url, "")` otherwise. -/
def splitAtChar (d : Char) (u : Str) : Str × Str :=
  let pre := u.takeWhile (fun c => ¬ c = d)
  if pre.length < u.length then (pre, u.drop (pre.length + 1)) else (u, [])

structure UrlParts where
  scheme : Str
  netloc : Str
  path : Str
  query : Str
  fragment : Str
  hadNetloc : Bool
  deriving DecidableEq, Repr

/-- `urllib.parse.urlsplit` (fragment split before query split, as in
CPython). -/
def pyUrlsplit (url : Str) : Option UrlParts :=
  let u := preprocessUrl url
  let sp := splitScheme u
  match splitNetloc sp.2 with
  | none => none
  | some (n, rest, had) =>
    let fr := splitAtChar '#' rest
    let qr := splitAtChar '?' fr.1
    some ⟨sp.1, n, qr.1, qr.2, fr.2, had⟩

/-- `_splitparams`, keeping only the path part that `urlparse` reports:
a `';'` in the last segment (after the last `'/'` when one exists) cuts
the path there. -/
def splitParams (p : Str) : Str :=
  if p.contains ';' then
    if p.contains '/' then
      let seg := (p.reverse.takeWhile (fun c => ¬ c = '/')).reverse
      if seg.contains ';' then
        p.take (p.length - seg.length) ++ seg.takeWhile (fun c => ¬ c = ';')
      else p
    else p.takeWhile (fun c => ¬ c = ';')
  else p

/-- Python `str.rstrip("/")`. -/
def rstripSlash (s : Str) : Str :=
  (s.reverse.dropWhile (fun c => c = '/')).reverse

/-- `canonicalize(url)` of `src/utils/canonical.py`; `none` is the
propagated `ValueError` of `urlparse`. -/
def canonicalize (url : Str) : Option Str :=
  match pyUrlsplit url with
  | none => none
  | some parts =>
    some (rstripSlash
      (parts.scheme ++ ofStr "://" ++ parts.netloc ++ splitParams parts.path))

/-- A valid scheme text: first char an ASCII letter, all chars scheme
characters (implies non-empty). -/
def goodScheme (s : Str) : Bool := headAlpha s && s.all schemeChar

/-- A netloc free of delimiters, square brackets and removed characters. -/
def goodNetloc (n : Str) : Bool :=
  n.all (fun c => ¬ (netlocDelim c ∨ c = '[' ∨ c = ']' ∨ isUnsafeUrlChar c))

/-- A path that is empty or slash-initial, free of `?`, `#`, `;` and
removed characters. -/
def goodPath (p : Str) : Bool :=
  (match p with
    | [] => true
    | c :: _ => c = '/') &&
  p.all (fun c => ¬ (c = '?' ∨ c = '#' ∨ c = ';' ∨ isUnsafeUrlChar c))

/-! ## Embedding of `PropertyScraper.url_discovery_routine`
(`property_scraper.py` lines 225-331), claims C4 and C5.

The loop walks `current` pages while the page budget allows, collects
each anchor's href (resolved by the collaborator `urljoin` and
canonicalized), de-duplicates against the run-local `seen_local` set, and
appends accepted URLs to both `all_urls` and the run's JSONL ledger — the
two receive exactly the same appends, so the ledger is modelled as the
same list of URLs (the `discovered_at` timestamp carries no identity).
`seen_local` is created empty at every call and the ledger file is
unlinked at every call; the routine keeps no cross-run state
(`self.seen_urls` is never consulted here).  A `ValueError` out of
`canonicalize` (unbalanced brackets) aborts the walk; rows already
written persist.  The `MAX_LISTINGS` break assigns `current = None` and
leaves the anchor loop, after which the next-page logic runs anyway. -/

structure DiscCfg where
  maxPages : ℕ
  maxListings : ℕ
  usePagination : Bool
  deriving DecidableEq, Repr

structure PageData where
  anchors : List (Option Str)
  nextHref : Option Str
  deriving DecidableEq, Repr

structure DiscEnv where
  fetch : Str → Option PageData
  urljoin : Str → Str → Str

structure DiscState where
  current : Option Str
  pages : ℕ
  urls : List Str
  ledger : List Str
  seen : List Str
  fetches : ℕ
  deriving DecidableEq, Repr

/-- The per-page anchor loop (lines 282-303).  Returns the new state and
whether a `ValueError` escaped the loop.  With a `MAX_LISTINGS` cap hit,
`current` is set to `None` and the remaining anchors are skipped. -/
def processAnchors (cfg : DiscCfg) (join : Str → Str → Str) (cur : Str) :
    List (Option Str) → DiscState → DiscState × Bool
  | [], st => (st, false)
  | none :: rest, st => processAnchors cfg join cur rest st
  | some h :: rest, st =>
    if h = [] then processAnchors cfg join cur rest st
    else
      match canonicalize (join cur h) with
      | none => (st, true)
      | some full =>
        if full ∈ st.seen then processAnchors cfg join cur rest st
        else
          let st' : DiscState :=
            { st with
                seen := full :: st.seen
                urls := st.urls ++ [full]
                ledger := st.ledger ++ [full] }
          if cfg.maxListings ≠ 0 ∧ cfg.maxListings ≤ st'.urls.length then
            ({ st' with current := none }, false)
          else processAnchors cfg join cur rest st'

/-- The next-page link (lines 307-311): only with a configured
pagination selector, only from a truthy href, resolved against the
current page. -/
def nextUrlOf (cfg : DiscCfg) (join : Str → Str → Str) (cur : Str)
    (pg : PageData) : Option Str :=
  if cfg.usePagination then
    match pg.nextHref with
    | some h => if h = [] then none else some (join cur h)
    | none => none
  else none

/-- The `while current and (max_pages == 0 or pages < max_pages)` walk
(lines 270-327), fuel-indexed to stay total; `maxPages = N > 0` makes the
result independent of any fuel `≥ N`. -/
def discoverLoop (cfg : DiscCfg) (env : DiscEnv) : ℕ → DiscState → DiscState
  | 0, st => st
  | fuel + 1, st =>
    match st.current with
    | none => st
    | some cur =>
      if cur = [] then st
      else if cfg.maxPages = 0 ∨ st.pages < cfg.maxPages then
        let st0 : DiscState := { st with fetches := st.fetches + 1 }
        match env.fetch cur with
        | none => st0
        | some pg =>
          let pa := processAnchors cfg env.urljoin cur pg.anchors st0
          if pa.2 then pa.1
          else
            let st2 : DiscState := { pa.1 with pages := pa.1.pages + 1 }
            match nextUrlOf cfg env.urljoin cur pg with
            | none => st2
            | some nu => discoverLoop cfg env fuel { st2 with current := some nu }
      else st

/-- `url_discovery_routine`: fresh local seen-set, fresh ledger, walk
from the first seed. -/
def urlDiscoveryRoutine (cfg : DiscCfg) (env : DiscEnv) (seed : Str)
    (fuel : ℕ) : DiscState :=
  discoverLoop cfg env fuel ⟨some seed, 0, [], [], [], 0⟩

/-- One result page holding a single listing anchor and no next link. -/
def c5Page : PageData := ⟨[some (ofStr "x")], none⟩

/-- Environment with that one page at the seed. -/
def c5Env : DiscEnv :=
  ⟨fun u => if u = ofStr "http://s" then some c5Page else none, fun _ h => h⟩

/-- A five-page cap, no listing cap, no pagination selector. -/
def c5Cfg : DiscCfg := ⟨5, 0, false⟩

/-- Soup of a page whose publish-date element shows a relative phrase. -/
def relSoup : Soup :=
  ⟨none, none, [], none, none, none, some (ofStr "2 days, 3 hours ago"), []⟩

/-- Soup of a fetchable, parseable page that has price, address and
description but no title. -/
def c8NoTitleSoup : Soup :=
  ⟨none, some (ofStr "₱ 95,200 /month"), ofStr "30 sqm", some (ofStr "Cebu"),
    some (ofStr "desc"), none, none, []⟩

/-- Fetcher serving `c8NoTitleSoup` at one URL. -/
def c8NoTitleFetch : Str → Option Soup :=
  fun u => if u = ofStr "http://x" then some c8NoTitleSoup else none

/-- Soup with a title and nothing else. -/
def c8TitledSoup : Soup :=
  ⟨some (ofStr "T"), none, [], none, none, none, none, []⟩

/-- Fetcher serving `c8TitledSoup` at one URL. -/
def c8TitledFetch : Str → Option Soup :=
  fun u => if u = ofStr "http://x" then some c8TitledSoup else none

/-- The run-internal ledger/URL-list relationship maintained by the
discovery walk: the ledger holds exactly the returned URLs, without
duplicates, and everything accepted was recorded as seen. -/
def discInv (st : DiscState) : Prop :=
  st.ledger = st.urls ∧ st.urls.Nodup ∧ ∀ x ∈ st.urls, x ∈ st.seen

/-- A result page with one listing anchor and an unconditional next link. -/
def c4Page : PageData := ⟨[some (ofStr "x")], some (ofStr "n")⟩

/-- Environment where every page is `c4Page`: the next-link chain never
ends, so only the page cap stops the walk. -/
def c4Env : DiscEnv := ⟨fun _ => some c4Page, fun _ h => h⟩

/-- A three-page cap, no listing cap, pagination selector configured. -/
def c4Cfg : DiscCfg := ⟨3, 0, true⟩

/-! ## Theorems -/

theorem detailStage_writes_titled (fetch : Str → Option Soup) (now : ℤ)
    (dtp dtpD : Str → Option ℤ) :
    ∀ urls u, u ∈ urls → ∀ s2, fetch u = some s2 →
      ∀ t, (parseListing now dtp dtpD s2 u).title = some t → t ≠ [] →
      parseListing now dtp dtpD s2 u ∈
        (detailStage fetch now dtp dtpD urls).written := by
  intro urls
  induction urls with
  | nil => intro u hu; exact absurd hu (List.not_mem_nil u)
  | cons v rest ih =>
    intro u hu s2 hf t ht htne
    rcases List.mem_cons.mp hu with rfl | hmem
    · show _ ∈ (detailStage fetch now dtp dtpD (u :: rest)).written
      simp only [detailStage]
      apply List.mem_append.mpr
      left
      simp only [detailStep, hf, ht, if_neg htne]
      exact List.mem_singleton.mpr rfl
    · simp only [detailStage]
      apply List.mem_append.mpr
      right
      exact ih u hmem s2 hf t ht htne

theorem detailStage_written_sound (fetch : Str → Option Soup) (now : ℤ)
    (dtp dtpD : Str → Option ℤ) :
    ∀ urls r, r ∈ (detailStage fetch now dtp dtpD urls).written →
      ∃ u, u ∈ urls ∧ ∃ s2, fetch u = some s2 ∧
        r = parseListing now dtp dtpD s2 u := by
  intro urls
  induction urls with
  | nil => intro r hr; exact absurd hr (List.not_mem_nil r)
  | cons v rest ih =>
    intro r hr
    simp only [detailStage] at hr
    rcases List.mem_append.mp hr with h1 | h2
    · cases hfv : fetch v with
      | none =>
        simp only [detailStep, hfv] at h1
        exact absurd h1 (List.not_mem_nil r)
      | some s2 =>
        simp only [detailStep, hfv] at h1
        cases ht : (parseListing now dtp dtpD s2 v).title with
        | none =>
          simp only [ht] at h1
          exact absurd h1 (List.not_mem_nil r)
        | some t =>
          simp only [ht] at h1
          by_cases hte : t = []
          · rw [if_pos hte] at h1
            exact absurd h1 (List.not_mem_nil r)
          · rw [if_neg hte] at h1
            have hrv := List.mem_singleton.mp h1
            exact ⟨v, List.mem_cons_self v rest, s2, hfv, hrv⟩
    · obtain ⟨u, hu, s2, hf, hr2⟩ := ih r h2
      exact ⟨u, List.mem_cons_of_mem _ hu, s2, hf, hr2⟩
/-- C1, counterexample.  The claim asserts that merging stored
`{price: 100, area: null}` with incoming `{price: null, area: 50}` yields
`{price: 100, area: 50}`.  On the code it does not: `upsert_df` sets every
non-key column to the incoming (EXCLUDED) value, so the stored price
regresses to NULL while the area becomes 50. -/
theorem C1_null_overwrite_counterexample :
    pgLookup (pgUpsertAll [c1Stored] [c1Incoming]) (ofStr "http://a") =
      some { blankRow (ofStr "http://a") with price_php := none, area_sqm := some 50 } := by
  decide

/-- C1, amended.  The upsert is last-write-wins, not a null-safe coalesce:
whenever the table already holds a row with the incoming record's key, the
post-upsert row at that key keeps the stored key and takes the incoming
value in every other column, null or not; a record with a fresh key is
appended.  In particular a null/empty field in the incoming record does
overwrite a non-null stored value. -/
theorem C1_upsert_is_last_write_wins (table : List PgRow) (r stored : PgRow)
    (hmem : stored ∈ table) (hkey : stored.url = r.url) :
    (∀ s ∈ pgUpsertRow table r, s.url = r.url →
        s.price_php = r.price_php ∧ s.area_sqm = r.area_sqm ∧
        s.listing_title = r.listing_title ∧ s.price_per_sqm = r.price_per_sqm) ∧
    (∀ t : List PgRow, (∀ s ∈ t, s.url ≠ r.url) → pgUpsertRow t r = t ++ [r]) := by
  constructor
  · intro s hs hu
    have hany : table.any (fun s => s.url = r.url) = true := by
      exact List.any_eq_true.mpr ⟨stored, hmem, by simp [hkey]⟩
    rw [pgUpsertRow, if_pos hany] at hs
    rcases List.mem_map.mp hs with ⟨s₀, _, rfl⟩
    by_cases h : s₀.url = r.url
    · simp [h, pgConflictUpdate]
    · simp [h] at hu
  · intro t ht
    have hany : t.any (fun s => s.url = r.url) = false := by
      simp only [List.any_eq_false]
      intro s hs
      simpa using ht s hs
    rw [pgUpsertRow, if_neg (by simp [hany])]

/-- C1, witness for the amended theorem at the spec's own scenario: the
row the upsert leaves behind carries the incoming values in every non-key
column. -/
theorem C1_upsert_is_last_write_wins_witness :
    (pgConflictUpdate c1Stored c1Incoming).price_php = c1Incoming.price_php ∧
    (pgConflictUpdate c1Stored c1Incoming).area_sqm = c1Incoming.area_sqm ∧
    (pgConflictUpdate c1Stored c1Incoming).listing_title = c1Incoming.listing_title ∧
    (pgConflictUpdate c1Stored c1Incoming).price_per_sqm = c1Incoming.price_per_sqm :=
  (C1_upsert_is_last_write_wins [c1Stored] c1Incoming c1Stored
    (by decide) (by decide)).1
    (pgConflictUpdate c1Stored c1Incoming) (by decide) (by decide)

/-- C2, counterexample.  The claim says the derived `price_per_sqm` equals
`price / area` whenever a numeric price and a positive numeric area are
both present.  For a present numeric price of `0` with area `30`,
`_normalize_scrape_record` leaves the field `None` (Python float `0.0` is
falsy in `price_php and area_sqm and area_sqm > 0`), where the claim
demands `0 / 30 = 0.0`. -/
theorem C2_zero_price_counterexample :
    priceValueOf c2ZeroPriceRec.price = some 0 ∧
    c2ZeroPriceRec.area.bind (fun d => d.sqm) = some 30 ∧
    (normalizeScrapeRecord c2ZeroPriceRec (ofStr "s") 0).1.price_per_sqm = none := by
  decide

/-- C2, amended.  In `_normalize_scrape_record`, if the numeric PHP price
is present and nonzero and a positive numeric area is present, the derived
`price_per_sqm` is exactly `price / area`; if the price is null (or zero),
or the area is null or not positive, the field is left `None`, so no
division by zero is ever performed.  In the `load_to_postgres` dataframe
path the same derivation applies except that a present price of zero is
also divided. -/
theorem C2_price_per_sqm_characterization (rec : ScrapeRec) (src : Str)
    (now : ℤ) (p a : ℚ) :
    (pricePhpOf rec.price = some p → p ≠ 0 →
        rec.area.bind (fun d => d.sqm) = some a → 0 < a →
        (normalizeScrapeRecord rec src now).1.price_per_sqm = some (p / a)) ∧
    (pricePhpOf rec.price = none →
        (normalizeScrapeRecord rec src now).1.price_per_sqm = none) ∧
    (rec.area.bind (fun d => d.sqm) = none →
        (normalizeScrapeRecord rec src now).1.price_per_sqm = none) ∧
    (rec.area.bind (fun d => d.sqm) = some a → ¬ 0 < a →
        (normalizeScrapeRecord rec src now).1.price_per_sqm = none) ∧
    (etlPricePerSqm (some p) (some a) = if 0 < a then some (p / a) else none) ∧
    (∀ q : Option ℚ, etlPricePerSqm none q = none ∧ etlPricePerSqm q none = none) := by
  refine ⟨?_, ?_, ?_, ?_, rfl, ?_⟩
  · intro hp hp0 ha ha0
    simp only [normalizeScrapeRecord, ppsqmOf, hp, ha]
    rw [if_pos ⟨hp0, ne_of_gt ha0, ha0⟩]
  · intro hp
    simp only [normalizeScrapeRecord, ppsqmOf, hp]
  · intro ha
    simp only [normalizeScrapeRecord, ppsqmOf, ha]
    cases pricePhpOf rec.price <;> rfl
  · intro ha ha0
    simp only [normalizeScrapeRecord, ppsqmOf, ha]
    cases pricePhpOf rec.price with
    | none => rfl
    | some p₀ => exact if_neg (by tauto)
  · intro q
    exact ⟨rfl, by cases q <;> rfl⟩

/-- C2, witness: price 45000 with area 30 derives exactly 1500. -/
theorem C2_price_per_sqm_witness :
    (normalizeScrapeRecord c2SpecRec (ofStr "s") 0).1.price_per_sqm = some 1500 := by
  have h := (C2_price_per_sqm_characterization c2SpecRec (ofStr "s") 0 45000 30).1
    (by decide) (by decide) (by decide) (by decide)
  rw [h]
  norm_num

theorem firstSuccess_eq_none_iff (ok : ℕ → Bool) :
    ∀ cnt start, firstSuccess ok start cnt = none ↔
      ∀ i, start ≤ i → i < start + cnt → ok i = false := by
  intro cnt
  induction cnt with
  | zero => intro start; simp [firstSuccess]; omega
  | succ n ih =>
    intro start
    by_cases h : ok start
    · simp only [firstSuccess, if_pos h]
      constructor
      · intro hc; exact absurd hc (by simp)
      · intro hall
        have := hall start (le_refl _) (by omega)
        rw [h] at this
        exact absurd this (by simp)
    · simp only [firstSuccess, if_neg h]
      rw [ih (start + 1)]
      constructor
      · intro hall i h1 h2
        rcases Nat.eq_or_lt_of_le h1 with rfl | hlt
        · simpa using h
        · exact hall i hlt (by omega)
      · intro hall i h1 h2
        exact hall i (by omega) (by omega)

/-- C9.  Buffering and failure atomicity of the writer:
(1) an `add` below the batch threshold appends the normalized row and does
not flush (nothing written, no error);
(2) an `add` that makes the buffer reach the batch size runs a flush of the
appended buffer;
(3) a flush whose round trip succeeds at some attempt within the retry
bound writes the whole buffered batch and leaves both buffers empty,
raising nothing;
(4) a flush whose every attempt within the positive retry bound fails
re-raises to the caller with the buffered batch still in the buffer,
unchanged;
(5) `close()` is exactly a flush, so on success every remaining buffered
record is written and none is silently lost. -/
theorem C9_writer_buffering (ok : ℕ → Bool) (cfg : WriterCfg) (st : WriterState)
    (rec : ScrapeRec) (source : Str) (now : ℤ) :
    (st.buffer.length + 1 < cfg.batchSize →
        addScrapeRecord ok cfg st rec source now =
          ⟨false, [],
            ⟨st.buffer ++ [(normalizeScrapeRecord rec source now).1],
              st.bufferMeta ++ [((normalizeScrapeRecord rec source now).2, source)]⟩⟩) ∧
    (cfg.batchSize ≤ st.buffer.length + 1 →
        addScrapeRecord ok cfg st rec source now =
          flushWriter ok cfg
            ⟨st.buffer ++ [(normalizeScrapeRecord rec source now).1],
              st.bufferMeta ++ [((normalizeScrapeRecord rec source now).2, source)]⟩) ∧
    (st.buffer ≠ [] → (∃ i, 1 ≤ i ∧ i ≤ cfg.retries ∧ ok i = true) →
        flushWriter ok cfg st = ⟨false, st.buffer, ⟨[], []⟩⟩) ∧
    (st.buffer ≠ [] → 1 ≤ cfg.retries →
        (∀ i, 1 ≤ i → i ≤ cfg.retries → ok i = false) →
        flushWriter ok cfg st = ⟨true, [], st⟩) ∧
    (closeWriter ok cfg st = flushWriter ok cfg st) := by
  refine ⟨?_, ?_, ?_, ?_, rfl⟩
  · intro h
    rw [addScrapeRecord, if_neg (by simp; omega)]
  · intro h
    rw [addScrapeRecord, if_pos (by simp; omega)]
  · intro hne hex
    have hnone : firstSuccess ok 1 cfg.retries ≠ none := by
      intro hc
      rw [firstSuccess_eq_none_iff] at hc
      rcases hex with ⟨i, h1, h2, h3⟩
      have hf := hc i h1 (by omega)
      rw [h3] at hf
      exact absurd hf (by simp)
    rw [flushWriter, if_neg hne]
    rcases Option.ne_none_iff_exists.mp hnone with ⟨i, hi⟩
    rw [← hi]
  · intro hne hr hall
    have hnone : firstSuccess ok 1 cfg.retries = none := by
      rw [firstSuccess_eq_none_iff]
      intro i h1 h2
      exact hall i h1 (by omega)
    rw [flushWriter, if_neg hne, hnone]
    exact if_neg (by omega)

/-- C9, witness: with batch size 2, retries 3 and a round trip that fails
on attempt 1 and succeeds on attempt 2, adding a second record triggers a
flush that writes both buffered rows and empties the buffer. -/
theorem C9_writer_buffering_witness :
    addScrapeRecord (fun i => decide (i = 2)) ⟨2, 3⟩
        ⟨[(normalizeScrapeRecord c2SpecRec (ofStr "s") 0).1], [(0, ofStr "s")]⟩
        c2ZeroPriceRec (ofStr "s") 0 =
      ⟨false,
        [(normalizeScrapeRecord c2SpecRec (ofStr "s") 0).1,
          (normalizeScrapeRecord c2ZeroPriceRec (ofStr "s") 0).1],
        ⟨[], []⟩⟩ := by
  have h2 := (C9_writer_buffering (fun i => decide (i = 2)) ⟨2, 3⟩
    ⟨[(normalizeScrapeRecord c2SpecRec (ofStr "s") 0).1], [(0, ofStr "s")]⟩
    c2ZeroPriceRec (ofStr "s") 0).2.1 (by decide)
  have h3 := ((C9_writer_buffering (fun i => decide (i = 2)) ⟨2, 3⟩
    ⟨[(normalizeScrapeRecord c2SpecRec (ofStr "s") 0).1,
        (normalizeScrapeRecord c2ZeroPriceRec (ofStr "s") 0).1],
      [(0, ofStr "s"), ((normalizeScrapeRecord c2ZeroPriceRec (ofStr "s") 0).2, ofStr "s")]⟩
    c2ZeroPriceRec (ofStr "s") 0).2.2).1 (by decide) ⟨2, by decide, by decide, by decide⟩
  rw [h2]
  exact h3

/-- C6, counterexample.  The claim says the area normalizer maps raw text
`"1000 sq ft"` to square meters ≈ 92.9.  The scraper's own normalizer
`_normalize_area` has no square-feet alternative in its pattern: on
`"1000 sq ft"` it returns a raw-only dict with no `sqm` value and applies
no conversion at all. -/
theorem C6_sqft_counterexample :
    normalizeArea (some (ofStr "1000 sq ft")) =
      .ok (some ⟨ofStr "1000 sq ft", none⟩) := by
  decide

/-- C6, amended.  The square-feet conversion lives only in the ETL
coercion `_coerce_area_sqm`, which maps `"1000 sq ft"` to
`1000 × 0.092903` rounded to 2 decimals = 92.9 and `"50 sqm"` to `50.0`
unconverted; the scraper's `_normalize_area` maps `"50 sqm"` to
`sqm = 50.0` with no conversion but leaves `"1000 sq ft"` without any
square-meter value. -/
theorem C6_area_normalization :
    coerceAreaSqmText (ofStr "1000 sq ft") = some (Rat.divInt 929 10) ∧
    coerceAreaSqmText (ofStr "50 sqm") = some 50 ∧
    normalizeArea (some (ofStr "50 sqm")) =
      .ok (some ⟨ofStr "50 sqm", some 50⟩) ∧
    normalizeArea (some (ofStr "1000 sq ft")) =
      .ok (some ⟨ofStr "1000 sq ft", none⟩) := by
  decide


/-- C7.  Relative-date parsing: for any current UTC instant `now`,
`_parse_published_at` maps `"2 days, 3 hours ago"` to `now` minus
2 days and 3 hours (183600 seconds, exactly, under the month-is-30-days /
year-is-365-days approximation of `REL_RE`); and a produced record whose
publish-date element shows that relative phrase retains the raw string
verbatim in `published_at_text` while `published_at` stays null (the
record path parses only absolute date tokens), i.e. the evidence is kept
even when parsing fails. -/
theorem C7_relative_date_parsing (now : ℤ) (dtp dtpD : Str → Option ℤ) :
    parsePublishedAt now dtp (some (ofStr "2 days, 3 hours ago")) =
      some (now - 183600) ∧
    (parseListing now dtp dtpD relSoup (ofStr "http://x")).published_at_text =
      some (ofStr "2 days, 3 hours ago") ∧
    (parseListing now dtp dtpD relSoup (ofStr "http://x")).published_at = none := by
  refine ⟨?_, rfl, rfl⟩
  have hrel : relSearch (stripStr (ofStr "2 days, 3 hours ago")) =
      some ⟨none, none, none, some 2, some 3, none⟩ := by decide
  have hdelta : relDeltaSecs ⟨none, none, none, some 2, some 3, none⟩ = 183600 := by
    decide
  simp only [parsePublishedAt]
  rw [if_neg (by decide), hrel]
  show some (now - relDeltaSecs ⟨none, none, none, some 2, some 3, none⟩) =
    some (now - 183600)
  rw [hdelta]

/-- C8, counterexample.  The claim says a record is not dropped merely
because one field such as the title is unavailable.  For a page that
fetches and parses fine, carrying a price, an address and a description
but no title, `detail_extraction_stage` writes nothing and logs the URL
under `missing_title`: the hard guard on the title drops the whole
record. -/
theorem C8_missing_title_counterexample :
    detailStage c8NoTitleFetch 0 (fun _ => none) (fun _ => none)
        [ofStr "http://x"] =
      ⟨[], [⟨ofStr "http://x", ofStr "missing_title"⟩]⟩ ∧
    (parseListing 0 (fun _ => none) (fun _ => none) c8NoTitleSoup
        (ofStr "http://x")).price ≠ none := by
  exact ⟨by decide, by decide⟩

/-- C8, amended.  Extraction is total and url-preserving — `_parse_listing`
returns a record for every soup, with the given url and the scrape
instant always set, all other fields possibly null; a fetched record with
a non-empty title is always written, no matter which other fields are
null; and every written record comes from a fetched page and carries that
page's url, so the staged output's urls are exactly (a subset of) the
non-empty input urls.  However, a record with a missing or empty title is
dropped and ledgered as `missing_title` — the graceful degradation does
not extend to the title field. -/
theorem C8_extraction_degrades_gracefully (fetch : Str → Option Soup)
    (now : ℤ) (dtp dtpD : Str → Option ℤ) (soup : Soup) (url : Str)
    (urls : List Str) :
    (parseListing now dtp dtpD soup url).url = url ∧
    (parseListing now dtp dtpD soup url).scraped_at = now ∧
    (∀ u ∈ urls, ∀ s2, fetch u = some s2 →
        ∀ t, (parseListing now dtp dtpD s2 u).title = some t → t ≠ [] →
        parseListing now dtp dtpD s2 u ∈
          (detailStage fetch now dtp dtpD urls).written) ∧
    (∀ r ∈ (detailStage fetch now dtp dtpD urls).written,
        ∃ u, u ∈ urls ∧ ∃ s2, fetch u = some s2 ∧
          r = parseListing now dtp dtpD s2 u) :=
  ⟨rfl, rfl,
    fun u hu s2 hf t ht htne =>
      detailStage_writes_titled fetch now dtp dtpD urls u hu s2 hf t ht htne,
    fun r hr => detailStage_written_sound fetch now dtp dtpD urls r hr⟩

/-- C8, witness: a titled page with every other field missing is written,
not dropped. -/
theorem C8_extraction_degrades_gracefully_witness :
    parseListing 7 (fun _ => none) (fun _ => none) c8TitledSoup
        (ofStr "http://x") ∈
      (detailStage c8TitledFetch 7 (fun _ => none) (fun _ => none)
        [ofStr "http://x"]).written :=
  (C8_extraction_degrades_gracefully c8TitledFetch 7 (fun _ => none)
      (fun _ => none) c8TitledSoup (ofStr "http://x")
      [ofStr "http://x"]).2.2.1
    (ofStr "http://x") (by decide) c8TitledSoup (by decide)
    (ofStr "T") (by decide) (by decide)

/-- C10, counterexample.  The claim says `_normalize_price` returns a
dict carrying the cleaned raw text for every non-empty input.  On the
non-empty input `"₱,"` the pattern matches with group 1 = `","`, and
`float(",".replace(",", ""))` = `float("")` raises `ValueError` out of
the function: there is no result at all. -/
theorem C10_comma_price_counterexample :
    normalizePrice (some (ofStr "₱,")) = .error () := by
  decide

/-- C10, amended.  `_normalize_price` returns `None` exactly when passed
`None` or the empty string; whenever it returns a dict, the dict carries
the cleaned original text under `raw`, and a numeric `value` forces
`currency = "PHP"` (it raises `ValueError` instead of returning when the
matched numeric group is all commas); and the direct-selector price path
only ever emits currency `"PHP"` or `None`. -/
theorem C10_price_normalizer_invariants (raw : Option Str) (s pt : Str) :
    (normalizePrice raw = .ok none ↔ raw = none ∨ raw = some []) ∧
    (∀ d, normalizePrice (some s) = .ok (some d) →
        d.raw = cleanText s ∧
        (∀ v : ℚ, d.value = some v → d.currency = some (ofStr "PHP"))) ∧
    ((domPrice pt).currency = some (ofStr "PHP") ∨
      (domPrice pt).currency = none) := by
  refine ⟨⟨?_, ?_⟩, ?_, ?_⟩
  · intro h
    cases raw with
    | none => exact Or.inl rfl
    | some r =>
      by_cases hre : r = []
      · exact Or.inr (by rw [hre])
      · exfalso
        simp only [normalizePrice, if_neg hre] at h
        cases hps : priceSearch (cleanText r) with
        | none =>
          simp only [hps] at h
          simp at h
        | some m =>
          obtain ⟨g, per⟩ := m
          simp only [hps] at h
          cases hpf : pythonFloat (g.filter (fun c => ¬ c = ',')) with
          | none =>
            simp only [hpf] at h
            exact Except.noConfusion h
          | some v =>
            simp only [hpf] at h
            simp at h
  · intro h
    rcases h with rfl | rfl
    · rfl
    · rfl
  · intro d hd
    by_cases hre : s = []
    · exfalso
      rw [hre] at hd
      rw [show normalizePrice (some ([] : Str)) = .ok none from rfl] at hd
      simp at hd
    · simp only [normalizePrice, if_neg hre] at hd
      cases hps : priceSearch (cleanText s) with
      | none =>
        simp only [hps] at hd
        have hde : d = ⟨cleanText s, none, none, none⟩ := by
          have hoj := Except.ok.inj hd
          exact (Option.some.inj hoj).symm
        rw [hde]
        exact ⟨rfl, fun v hv => Option.noConfusion hv⟩
      | some m =>
        obtain ⟨g, per⟩ := m
        simp only [hps] at hd
        cases hpf : pythonFloat (g.filter (fun c => ¬ c = ',')) with
        | none =>
          simp only [hpf] at hd
          exact Except.noConfusion hd
        | some v =>
          simp only [hpf] at hd
          have hde := (Option.some.inj (Except.ok.inj hd)).symm
          rw [hde]
          exact ⟨rfl, fun w hw => rfl⟩
  · simp only [domPrice]
    by_cases h : (pt.contains '₱' || containsSubCI (ofStr "php") pt) = true
    · rw [if_pos h]; exact Or.inl rfl
    · rw [if_neg h]; exact Or.inr rfl

/-- C10, witness: the amended theorem applied at `None` (giving back
`None`), at a matching price text (raw and PHP facts), and at a concrete
direct-selector text. -/
theorem C10_price_normalizer_invariants_witness :
    (normalizePrice none = .ok none) ∧
    (∀ d, normalizePrice (some (ofStr "₱ 95,200 /month")) = .ok (some d) →
        d.raw = cleanText (ofStr "₱ 95,200 /month") ∧
        (∀ v : ℚ, d.value = some v → d.currency = some (ofStr "PHP"))) ∧
    ((domPrice (ofStr "₱ 5000")).currency = some (ofStr "PHP") ∨
      (domPrice (ofStr "₱ 5000")).currency = none) :=
  ⟨(C10_price_normalizer_invariants none (ofStr "x") (ofStr "x")).1.mpr
      (Or.inl rfl),
    (C10_price_normalizer_invariants none (ofStr "₱ 95,200 /month")
      (ofStr "x")).2.1,
    (C10_price_normalizer_invariants none (ofStr "x") (ofStr "₱ 5000")).2.2⟩


theorem takeWhile_append_not {P : Char → Bool} (l₁ : Str) (b : Char) (l₂ : Str)
    (h1 : ∀ c ∈ l₁, P c = true) (h2 : P b = false) :
    (l₁ ++ b :: l₂).takeWhile P = l₁ := by
  induction l₁ with
  | nil => simp [List.takeWhile_cons, h2]
  | cons a t ih =>
    have ha := h1 a (List.mem_cons_self a t)
    simp [List.takeWhile_cons, ha,
      ih (fun c hc => h1 c (List.mem_cons_of_mem a hc))]

theorem takeWhile_eq_self_of_all {P : Char → Bool} (l : Str)
    (h : ∀ c ∈ l, P c = true) : l.takeWhile P = l := by
  induction l with
  | nil => rfl
  | cons a t ih =>
    simp [List.takeWhile_cons, h a (List.mem_cons_self a t),
      ih (fun c hc => h c (List.mem_cons_of_mem a hc))]

theorem drop_append_cons (l₁ : Str) (b : Char) (l₂ : Str) :
    (l₁ ++ b :: l₂).drop (l₁.length + 1) = l₂ := by
  have he : l₁ ++ b :: l₂ = (l₁ ++ [b]) ++ l₂ := by simp
  have hlen : l₁.length + 1 = (l₁ ++ [b]).length := by simp
  rw [he, hlen, List.drop_left]

theorem dropWhile_append_of_ne {P : Char → Bool} (a b : Str)
    (h : a.dropWhile P ≠ []) : (a ++ b).dropWhile P = a.dropWhile P ++ b := by
  induction a with
  | nil => simp at h
  | cons x t ih =>
    by_cases hx : P x = true
    · rw [List.cons_append, List.dropWhile_cons_of_pos hx,
        List.dropWhile_cons_of_pos hx]
      rw [List.dropWhile_cons_of_pos hx] at h
      exact ih h
    · rw [List.cons_append,
        List.dropWhile_cons_of_neg (by simpa using hx),
        List.dropWhile_cons_of_neg (by simpa using hx)]
      rfl

theorem dropWhile_append_of_all {P : Char → Bool} (a b : Str)
    (h : ∀ c ∈ a, P c = true) : (a ++ b).dropWhile P = b.dropWhile P := by
  induction a with
  | nil => rfl
  | cons x t ih =>
    rw [List.cons_append, List.dropWhile_cons_of_pos (h x (List.mem_cons_self x t))]
    exact ih (fun c hc => h c (List.mem_cons_of_mem x hc))

theorem rstripSlash_append_right (x y : Str) (h : rstripSlash y ≠ []) :
    rstripSlash (x ++ y) = x ++ rstripSlash y := by
  unfold rstripSlash at *
  have hy : y.reverse.dropWhile (fun c => c = '/') ≠ [] := by
    intro hc
    rw [hc] at h
    exact h rfl
  rw [List.reverse_append, dropWhile_append_of_ne _ _ hy, List.reverse_append,
    List.reverse_reverse]

theorem rstripSlash_append_all (x y : Str) (h : rstripSlash y = []) :
    rstripSlash (x ++ y) = rstripSlash x := by
  unfold rstripSlash at *
  have hnil : y.reverse.dropWhile (fun c => decide (c = '/')) = [] := by
    simpa using congrArg List.reverse h
  have hy : ∀ c ∈ y.reverse, (fun c => decide (c = '/')) c = true := by
    intro c hc
    by_contra hne
    have hsub := List.dropWhile_sublist (l := y.reverse) (p := fun c => decide (c = '/'))
    rw [hnil] at hsub
    have : c ∈ y.reverse.dropWhile (fun c => decide (c = '/')) := by
      rw [List.dropWhile_eq_nil_iff] at hnil
      exact absurd (by simpa using hnil c hc) (by simpa using hne)
    rw [hnil] at this
    exact absurd this (List.not_mem_nil c)
  rw [List.reverse_append, dropWhile_append_of_all _ _ hy]

theorem rstripSlash_append_slash (x : Str) :
    rstripSlash (x ++ [ '/' ]) = rstripSlash x :=
  rstripSlash_append_all x [ '/' ] (by decide)

theorem rstripSlash_eq_self_of_last (x t : Str) (c : Char) (hc : ¬ c = '/')
    (hx : x = t ++ [c]) : rstripSlash x = x := by
  unfold rstripSlash
  rw [hx, List.reverse_append]
  simp only [List.reverse_singleton, List.singleton_append]
  rw [List.dropWhile_cons_of_neg (by simpa using hc)]
  simp

theorem dropWhile_head_neg {P : Char → Bool} (l : Str) (c : Char) (t : Str)
    (h : l.dropWhile P = c :: t) : P c = false := by
  induction l with
  | nil => simp at h
  | cons a r ih =>
    by_cases ha : P a = true
    · rw [List.dropWhile_cons_of_pos ha] at h
      exact ih h
    · rw [List.dropWhile_cons_of_neg (by simpa using ha)] at h
      cases h
      simpa using ha

theorem rstripSlash_cases (y : Str) :
    rstripSlash y = [] ∨ ∃ t c, rstripSlash y = t ++ [c] ∧ ¬ c = '/' := by
  unfold rstripSlash
  cases hd : y.reverse.dropWhile (fun c => c = '/') with
  | nil => exact Or.inl rfl
  | cons c t =>
    refine Or.inr ⟨t.reverse, c, ?_, ?_⟩
    · simp
    · have hhd := dropWhile_head_neg _ _ _ hd
      simpa using hhd

theorem mem_rstripSlash {y : Str} {c : Char} (h : c ∈ rstripSlash y) : c ∈ y := by
  unfold rstripSlash at h
  rw [List.mem_reverse] at h
  have hs := (List.dropWhile_sublist (l := y.reverse) (p := fun c => c = '/')).mem h
  rwa [List.mem_reverse] at hs

theorem rstripSlash_head (c : Char) (l : Str) :
    rstripSlash (c :: l) = [] ∨ ∃ t, rstripSlash (c :: l) = c :: t := by
  by_cases h : rstripSlash l = []
  · have he : rstripSlash (c :: l) = rstripSlash [c] := by
      have hall := rstripSlash_append_all [c] l h
      simpa using hall
    by_cases hc : c = '/'
    · left
      rw [he, hc]
      decide
    · right
      refine ⟨[], ?_⟩
      rw [he, rstripSlash_eq_self_of_last [c] [] c hc (by simp)]
  · right
    have he := rstripSlash_append_right [c] l h
    simp only [List.singleton_append] at he
    exact ⟨rstripSlash l, he⟩


theorem toNat_ofNat_small {n : ℕ} (h : n < 55296) : (Char.ofNat n).toNat = n := by
  rw [Char.ofNat, dif_pos (Or.inl h)]
  simp [Char.ofNatAux, Char.toNat, UInt32.toNat, BitVec.toNat_ofNatLt]

theorem lowerChar_toNat_of_upper {c : Char} (h : asciiUpper c = true) :
    (lowerChar c).toNat = c.toNat + 32 := by
  unfold lowerChar
  rw [if_pos h]
  apply toNat_ofNat_small
  simp only [asciiUpper, decide_eq_true_eq] at h
  omega

theorem lowerChar_of_not_upper {c : Char} (h : ¬ asciiUpper c = true) :
    lowerChar c = c := by
  unfold lowerChar
  rw [if_neg h]

theorem asciiAlpha_lowerChar {c : Char} (h : asciiAlpha c = true) :
    asciiAlpha (lowerChar c) = true := by
  by_cases hu : asciiUpper c = true
  · have ht := lowerChar_toNat_of_upper hu
    simp only [asciiUpper, decide_eq_true_eq] at hu
    simp only [asciiAlpha, asciiUpper, asciiLower, Bool.or_eq_true, decide_eq_true_eq, ht]
    right
    omega
  · rw [lowerChar_of_not_upper hu]
    exact h

theorem schemeChar_alpha {c : Char} (h : asciiAlpha c = true) :
    schemeChar c = true := by
  simp only [schemeChar, Bool.or_eq_true]
  exact Or.inl (Or.inl (Or.inl (Or.inl h)))

theorem schemeChar_lowerChar {c : Char} (h : schemeChar c = true) :
    schemeChar (lowerChar c) = true := by
  by_cases hu : asciiUpper c = true
  · refine schemeChar_alpha (asciiAlpha_lowerChar ?_)
    simp only [asciiAlpha, Bool.or_eq_true]
    exact Or.inl hu
  · rw [lowerChar_of_not_upper hu]
    exact h

theorem lowerChar_idem (c : Char) : lowerChar (lowerChar c) = lowerChar c := by
  by_cases hu : asciiUpper c = true
  · have ht := lowerChar_toNat_of_upper hu
    simp only [asciiUpper, decide_eq_true_eq] at hu
    apply lowerChar_of_not_upper
    simp only [asciiUpper, decide_eq_true_eq, ht]
    omega
  · rw [lowerChar_of_not_upper hu, lowerChar_of_not_upper hu]

theorem schemeChar_ne {c : Char} (h : schemeChar c = true) {d : Char}
    (hd : schemeChar d = false) : ¬ c = d := by
  intro he
  rw [he, hd] at h
  exact Bool.noConfusion h

theorem schemeChar_not_special {c : Char} (h : schemeChar c = true) :
    ¬ c = ':' ∧ ¬ c = '/' ∧ ¬ c = '#' ∧ ¬ c = '?' ∧
      isUnsafeUrlChar c = false ∧ isC0OrSpace c = false ∧
      netlocDelim c = false := by
  refine ⟨schemeChar_ne h (by decide), schemeChar_ne h (by decide),
    schemeChar_ne h (by decide), schemeChar_ne h (by decide), ?_, ?_, ?_⟩
  · by_contra hb
    have hu : isUnsafeUrlChar c = true := by
      cases hx : isUnsafeUrlChar c
      · exact absurd hx hb
      · rfl
    simp only [isUnsafeUrlChar, decide_eq_true_eq] at hu
    rcases hu with rfl | rfl | rfl <;> simp [schemeChar, asciiAlpha, asciiUpper,
      asciiLower, asciiDigit] at h
  · simp only [schemeChar, asciiAlpha, asciiUpper, asciiLower, asciiDigit,
      Bool.or_eq_true, decide_eq_true_eq] at h
    simp only [isC0OrSpace, decide_eq_false_iff_not]
    rcases h with ((((h1 | h1) | h1) | rfl) | rfl) | rfl
    · omega
    · omega
    · omega
    · decide
    · decide
    · decide
  · cases hx : netlocDelim c
    · rfl
    · exfalso
      simp only [netlocDelim, decide_eq_true_eq] at hx
      rcases hx with rfl | rfl | rfl <;> simp [schemeChar, asciiAlpha, asciiUpper,
        asciiLower, asciiDigit] at h

theorem goodScheme_parts {s : Str} (h : goodScheme s = true) :
    headAlpha s = true ∧ (∀ c ∈ s, schemeChar c = true) ∧ s ≠ [] := by
  simp only [goodScheme, Bool.and_eq_true, List.all_eq_true] at h
  refine ⟨h.1, h.2, ?_⟩
  intro hnil
  rw [hnil] at h
  exact Bool.noConfusion h.1

theorem map_lowerChar_idem (s : Str) :
    (s.map lowerChar).map lowerChar = s.map lowerChar := by
  rw [List.map_map]
  apply List.map_congr_left
  intro c _
  exact lowerChar_idem c

theorem goodScheme_map_lowerChar {s : Str} (h : goodScheme s = true) :
    goodScheme (s.map lowerChar) = true := by
  obtain ⟨hh, hall, hne⟩ := goodScheme_parts h
  simp only [goodScheme, Bool.and_eq_true, List.all_eq_true]
  constructor
  · cases s with
    | nil => exact absurd rfl hne
    | cons c t =>
      simp only [List.map_cons, headAlpha]
      simp only [headAlpha] at hh
      exact asciiAlpha_lowerChar hh
  · intro c hc
    rcases List.mem_map.mp hc with ⟨c0, hc0, rfl⟩
    exact schemeChar_lowerChar (hall c0 hc0)


theorem filter_unsafe_eq_self {l : Str} (h : ∀ c ∈ l, isUnsafeUrlChar c = false) :
    l.filter (fun c => ¬ isUnsafeUrlChar c = true) = l := by
  apply List.filter_eq_self.mpr
  intro c hc
  simp [h c hc]

theorem preprocessUrl_append (c : Char) (t e : Str) (hc : isC0OrSpace c = false)
    (hall : ∀ x ∈ c :: t, isUnsafeUrlChar x = false) :
    preprocessUrl ((c :: t) ++ e) =
      (c :: t) ++ e.filter (fun x => ¬ isUnsafeUrlChar x = true) := by
  unfold preprocessUrl
  rw [List.cons_append, List.dropWhile_cons_of_neg (by simp [hc])]
  rw [show (c :: (t ++ e)) = (c :: t) ++ e from rfl, List.filter_append,
    filter_unsafe_eq_self hall]

theorem headAlpha_append (s y : Str) (hne : s ≠ []) :
    headAlpha (s ++ y) = headAlpha s := by
  cases s with
  | nil => exact absurd rfl hne
  | cons c t => rfl

theorem splitScheme_structured (s r : Str) (hs : goodScheme s = true) :
    splitScheme (s ++ ':' :: r) = (s.map lowerChar, r) := by
  obtain ⟨hh, hall, hne⟩ := goodScheme_parts hs
  have hpre : (s ++ ':' :: r).takeWhile (fun c => ¬ c = ':') = s := by
    apply takeWhile_append_not
    · intro c hc
      simp [(schemeChar_not_special (hall c hc)).1]
    · simp
  simp only [splitScheme, hpre]
  rw [if_pos ?hcond]
  case hcond =>
    refine ⟨?_, ?_, ?_, ?_⟩
    · rw [List.length_append, List.length_cons]
      omega
    · rw [headAlpha_append s (':' :: r) hne]
      exact hh
    · rw [List.all_eq_true]
      exact hall
    · cases s with
      | nil => exact absurd rfl hne
      | cons a b => simp
  rw [drop_append_cons]

theorem contains_eq_false_of {l : Str} {d : Char} (h : ∀ c ∈ l, ¬ c = d) :
    l.contains d = false := by
  cases hx : l.contains d
  · rfl
  · exfalso
    have hm : d ∈ l := by simpa using hx
    exact absurd rfl (h d hm)


theorem goodNetloc_parts {n : Str} (hn : goodNetloc n = true) :
    ∀ c ∈ n, netlocDelim c = false ∧ ¬ c = '[' ∧ ¬ c = ']' ∧
      isUnsafeUrlChar c = false := by
  intro c hc
  simp only [goodNetloc, List.all_eq_true] at hn
  have hcn := hn c hc
  simp only [decide_eq_true_eq, not_or] at hcn
  refine ⟨?_, hcn.2.1, hcn.2.2.1, ?_⟩
  · cases hx : netlocDelim c
    · rfl
    · exact absurd hx hcn.1
  · cases hx : isUnsafeUrlChar c
    · rfl
    · exact absurd hx hcn.2.2.2

theorem goodPath_parts {p : Str} (hp : goodPath p = true) :
    (p = [] ∨ ∃ t, p = '/' :: t) ∧
      ∀ c ∈ p, ¬ c = '?' ∧ ¬ c = '#' ∧ ¬ c = ';' ∧
        isUnsafeUrlChar c = false := by
  simp only [goodPath, Bool.and_eq_true, List.all_eq_true] at hp
  constructor
  · cases p with
    | nil => exact Or.inl rfl
    | cons c t =>
      right
      have hc := hp.1
      simp only [decide_eq_true_eq] at hc
      exact ⟨t, by rw [hc]⟩
  · intro c hc
    have hcn := hp.2 c hc
    simp only [decide_eq_true_eq, not_or] at hcn
    refine ⟨hcn.1, hcn.2.1, hcn.2.2.1, ?_⟩
    cases hx : isUnsafeUrlChar c
    · rfl
    · exact absurd hx hcn.2.2.2

theorem splitNetloc_structured (n rest : Str) (hn : goodNetloc n = true)
    (hrest : rest = [] ∨ ∃ c t, rest = c :: t ∧ netlocDelim c = true) :
    splitNetloc ('/' :: '/' :: (n ++ rest)) = some (n, rest, true) := by
  have hnp := goodNetloc_parts hn
  have htw : (n ++ rest).takeWhile (fun c => ¬ netlocDelim c = true) = n := by
    rcases hrest with rfl | ⟨c, t, rfl, hc⟩
    · rw [List.append_nil]
      exact takeWhile_eq_self_of_all n
        (fun c hc => decide_eq_true (by simp [(hnp c hc).1]))
    · exact takeWhile_append_not n c t
        (fun x hx => decide_eq_true (by simp [(hnp x hx).1]))
        (by simp [hc])
  simp only [splitNetloc, htw]
  rw [if_neg ?hbr]
  case hbr =>
    rw [contains_eq_false_of (fun c hc => (hnp c hc).2.1),
      contains_eq_false_of (fun c hc => (hnp c hc).2.2.1)]
    simp
  rw [List.drop_left]

theorem takeWhile_append_all {P : Char → Bool} (x y : Str)
    (h : ∀ c ∈ x, P c = true) :
    (x ++ y).takeWhile P = x ++ y.takeWhile P := by
  induction x with
  | nil => rfl
  | cons a t ih =>
    rw [List.cons_append, List.takeWhile_cons_of_pos (h a (List.mem_cons_self a t)),
      ih (fun c hc => h c (List.mem_cons_of_mem a hc)), List.cons_append]

theorem splitAtChar_not_mem (d : Char) (u : Str) (h : ∀ c ∈ u, ¬ c = d) :
    splitAtChar d u = (u, []) := by
  have hpre : u.takeWhile (fun c => ¬ c = d) = u :=
    takeWhile_eq_self_of_all u (fun c hc => decide_eq_true (h c hc))
  simp only [splitAtChar, hpre]
  rw [if_neg (by omega)]

theorem splitAtChar_append_cons (d : Char) (x y : Str) (h : ∀ c ∈ x, ¬ c = d) :
    splitAtChar d (x ++ d :: y) = (x, y) := by
  have hpre : (x ++ d :: y).takeWhile (fun c => ¬ c = d) = x :=
    takeWhile_append_not x d y (fun c hc => decide_eq_true (h c hc)) (by simp)
  simp only [splitAtChar, hpre]
  rw [if_pos (by rw [List.length_append, List.length_cons]; omega)]
  rw [drop_append_cons]

theorem splitAtChar_fst_append (d : Char) (x y : Str) (h : ∀ c ∈ x, ¬ c = d) :
    (splitAtChar d (x ++ y)).1 = x ++ (splitAtChar d y).1 := by
  have hpre := takeWhile_append_all x y
    (fun c hc => decide_eq_true (h c hc))
  simp only [splitAtChar, hpre]
  by_cases hlt : (y.takeWhile (fun c => ¬ c = d)).length < y.length
  · rw [if_pos (by simp only [List.length_append]; omega), if_pos hlt]
  · rw [if_neg (by simp only [List.length_append]; omega), if_neg hlt]


theorem splitParams_no_semi (p : Str) (h : ∀ c ∈ p, ¬ c = ';') :
    splitParams p = p := by
  simp only [splitParams]
  rw [if_neg (by rw [contains_eq_false_of h]; simp)]

theorem urlChunk_eq : ofStr "://" = ':' :: '/' :: '/' :: [] := rfl

theorem splitAtChar_nil (d : Char) : splitAtChar d [] = ([], []) := by
  simp [splitAtChar]

theorem filter_cons_keep (c : Char) (t : Str) (hc : isUnsafeUrlChar c = false) :
    (c :: t).filter (fun x => ¬ isUnsafeUrlChar x = true) =
      c :: t.filter (fun x => ¬ isUnsafeUrlChar x = true) := by
  simp [List.filter_cons, hc]

theorem pyUrlsplit_structured (s n p e : Str) (hs : goodScheme s = true)
    (hn : goodNetloc n = true) (hp : goodPath p = true)
    (he : e = [] ∨ (∃ t, e = '#' :: t) ∨ (∃ t, e = '?' :: t)) :
    ∃ q f, pyUrlsplit (s ++ ofStr "://" ++ n ++ p ++ e) =
      some ⟨s.map lowerChar, n, p, q, f, true⟩ := by
  obtain ⟨hh, hall, hne⟩ := goodScheme_parts hs
  obtain ⟨hpHead, hpAll⟩ := goodPath_parts hp
  have hnp := goodNetloc_parts hn
  obtain ⟨c0, s0, rfl⟩ : ∃ c0 s0, s = c0 :: s0 := by
    cases s with
    | nil => exact absurd rfl hne
    | cons a b => exact ⟨a, b, rfl⟩
  have hc0 : schemeChar c0 = true := hall c0 (List.mem_cons_self c0 s0)
  -- the body before `e`, head-exposed
  have hAshape : ∀ z : Str, (c0 :: s0) ++ ofStr "://" ++ n ++ p ++ z =
      (c0 :: (s0 ++ (':' :: '/' :: '/' :: (n ++ p)))) ++ z := by
    intro z
    rw [urlChunk_eq]
    simp [List.append_assoc]
  have hclean : ∀ x ∈ c0 :: (s0 ++ (':' :: '/' :: '/' :: (n ++ p))),
      isUnsafeUrlChar x = false := by
    intro x hx
    rcases List.mem_cons.mp hx with rfl | hx
    · exact (schemeChar_not_special hc0).2.2.2.2.1
    · rcases List.mem_append.mp hx with hx | hx
      · exact (schemeChar_not_special
          (hall x (List.mem_cons_of_mem c0 hx))).2.2.2.2.1
      · rcases List.mem_cons.mp hx with rfl | hx
        · decide
        · rcases List.mem_cons.mp hx with rfl | hx
          · decide
          · rcases List.mem_cons.mp hx with rfl | hx
            · decide
            · rcases List.mem_append.mp hx with hx | hx
              · exact (hnp x hx).2.2.2
              · exact (hpAll x hx).2.2.2
  have hpre : ∀ z : Str,
      preprocessUrl ((c0 :: s0) ++ ofStr "://" ++ n ++ p ++ z) =
        (c0 :: s0) ++ (':' :: ('/' :: '/' :: (n ++
          (p ++ z.filter (fun x => ¬ isUnsafeUrlChar x = true))))) := by
    intro z
    rw [hAshape z,
      preprocessUrl_append c0 (s0 ++ (':' :: '/' :: '/' :: (n ++ p))) z
        (schemeChar_not_special hc0).2.2.2.2.2.1 hclean]
    simp [List.append_assoc]
  have hsch : ∀ r : Str,
      splitScheme ((c0 :: s0) ++ ':' :: r) = ((c0 :: s0).map lowerChar, r) :=
    fun r => splitScheme_structured (c0 :: s0) r hs
  -- case split on the suffix
  have hmain : ∀ e2 : Str,
      (e2 = [] ∨ (∃ t, e2 = '#' :: t) ∨ (∃ t, e2 = '?' :: t)) →
      ∃ q f, pyUrlsplit ((c0 :: s0) ++ ofStr "://" ++ n ++ p ++ e2) =
        some ⟨(c0 :: s0).map lowerChar, n, p, q, f, true⟩ := by
    intro e2 he2
    have hrest : p ++ e2.filter (fun x => ¬ isUnsafeUrlChar x = true) = [] ∨
        ∃ c t, p ++ e2.filter (fun x => ¬ isUnsafeUrlChar x = true) = c :: t ∧
          netlocDelim c = true := by
      rcases hpHead with rfl | ⟨t, rfl⟩
      · rcases he2 with rfl | ⟨t, rfl⟩ | ⟨t, rfl⟩
        · exact Or.inl rfl
        · exact Or.inr ⟨'#', t.filter (fun x => ¬ isUnsafeUrlChar x = true),
            by rw [List.nil_append, filter_cons_keep '#' t (by decide)], by decide⟩
        · exact Or.inr ⟨'?', t.filter (fun x => ¬ isUnsafeUrlChar x = true),
            by rw [List.nil_append, filter_cons_keep '?' t (by decide)], by decide⟩
      · exact Or.inr ⟨'/', t ++ e2.filter (fun x => ¬ isUnsafeUrlChar x = true),
          by simp, by decide⟩
    simp only [pyUrlsplit, hpre e2, hsch]
    rw [splitNetloc_structured n
      (p ++ e2.filter (fun x => ¬ isUnsafeUrlChar x = true)) hn hrest]
    have hpNoHash : ∀ c ∈ p, ¬ c = '#' := fun c hc => (hpAll c hc).2.1
    have hpNoQm : ∀ c ∈ p, ¬ c = '?' := fun c hc => (hpAll c hc).1
    rcases he2 with rfl | ⟨t, rfl⟩ | ⟨t, rfl⟩
    · refine ⟨[], [], ?_⟩
      simp only [List.filter_nil, List.append_nil]
      rw [splitAtChar_not_mem '#' p hpNoHash, splitAtChar_not_mem '?' p hpNoQm]
    · refine ⟨[], t.filter (fun x => ¬ isUnsafeUrlChar x = true), ?_⟩
      have hf := filter_cons_keep '#' t (by decide)
      simp only [hf]
      rw [splitAtChar_append_cons '#' p _ hpNoHash,
        splitAtChar_not_mem '?' p hpNoQm]
    · have hf := filter_cons_keep '?' t (by decide)
      set tf := t.filter (fun x => ¬ isUnsafeUrlChar x = true) with htf
      have hfst : (splitAtChar '#' (p ++ '?' :: tf)).1 =
          p ++ '?' :: (splitAtChar '#' tf).1 := by
        have hx : ∀ c ∈ p ++ [ '?' ], ¬ c = '#' := by
          intro c hc
          rcases List.mem_append.mp hc with hc | hc
          · exact hpNoHash c hc
          · rcases List.mem_singleton.mp hc with rfl
            decide
        have hres := splitAtChar_fst_append '#' (p ++ [ '?' ]) tf hx
        rw [List.append_assoc] at hres
        simpa using hres
      refine ⟨(splitAtChar '#' tf).1, (splitAtChar '#' (p ++ '?' :: tf)).2, ?_⟩
      simp only [hf]
      rw [hfst, splitAtChar_append_cons '?' p _ hpNoQm]
  exact hmain e he

theorem canonicalize_structured (s n p e : Str) (hs : goodScheme s = true)
    (hn : goodNetloc n = true) (hp : goodPath p = true)
    (he : e = [] ∨ (∃ t, e = '#' :: t) ∨ (∃ t, e = '?' :: t)) :
    canonicalize (s ++ ofStr "://" ++ n ++ p ++ e) =
      some (rstripSlash (s.map lowerChar ++ ofStr "://" ++ n ++ p)) := by
  obtain ⟨q, f, hsplit⟩ := pyUrlsplit_structured s n p e hs hn hp he
  simp only [canonicalize, hsplit]
  rw [splitParams_no_semi p (fun c hc => ((goodPath_parts hp).2 c hc).2.2.1)]


theorem canonicalize_scheme_colon (s : Str) (hs : goodScheme s = true) :
    canonicalize (s ++ [ ':' ]) = some (s.map lowerChar ++ [ ':' ]) := by
  obtain ⟨hh, hall, hne⟩ := goodScheme_parts hs
  obtain ⟨c0, s0, rfl⟩ : ∃ c0 s0, s = c0 :: s0 := by
    cases s with
    | nil => exact absurd rfl hne
    | cons a b => exact ⟨a, b, rfl⟩
  have hc0 : schemeChar c0 = true := hall c0 (List.mem_cons_self c0 s0)
  have hpre : preprocessUrl ((c0 :: s0) ++ [ ':' ]) = (c0 :: s0) ++ [ ':' ] := by
    rw [preprocessUrl_append c0 s0 [ ':' ]
      (schemeChar_not_special hc0).2.2.2.2.2.1
      (fun x hx => (schemeChar_not_special (hall x hx)).2.2.2.2.1)]
    rfl
  have hsp : splitScheme ((c0 :: s0) ++ ':' :: []) = ((c0 :: s0).map lowerChar, []) :=
    splitScheme_structured (c0 :: s0) [] hs
  have hsplit : pyUrlsplit ((c0 :: s0) ++ [ ':' ]) =
      some ⟨(c0 :: s0).map lowerChar, [], [], [], [], false⟩ := by
    simp only [pyUrlsplit, hpre, hsp]
    rw [show splitNetloc ([] : Str) = some (([] : Str), ([] : Str), false) from rfl]
    rfl
  simp only [canonicalize, hsplit]
  rw [show splitParams ([] : Str) = ([] : Str) from rfl]
  simp only [List.append_nil]
  have h1 : (c0 :: s0).map lowerChar ++ ofStr "://" =
      (((c0 :: s0).map lowerChar ++ [ ':' ]) ++ [ '/' ]) ++ [ '/' ] := by
    rw [urlChunk_eq]
    simp [List.append_assoc]
  rw [h1, rstripSlash_append_slash, rstripSlash_append_slash,
    rstripSlash_eq_self_of_last _ ((c0 :: s0).map lowerChar) ':' (by decide) rfl]

theorem goodPath_all_of {c : Char} (h1 : ¬ c = '?') (h2 : ¬ c = '#')
    (h3 : ¬ c = ';') (h4 : isUnsafeUrlChar c = false) :
    decide (¬ (c = '?' ∨ c = '#' ∨ c = ';' ∨ isUnsafeUrlChar c = true)) = true := by
  apply decide_eq_true
  rintro (hx | hx | hx | hx)
  · exact h1 hx
  · exact h2 hx
  · exact h3 hx
  · rw [h4] at hx
    exact Bool.false_ne_true hx

theorem goodPath_append_slash {p : Str} (hp : goodPath p = true) :
    goodPath (p ++ [ '/' ]) = true := by
  obtain ⟨hpHead, hpAll⟩ := goodPath_parts hp
  simp only [goodPath, Bool.and_eq_true, List.all_eq_true]
  refine ⟨?_, ?_⟩
  · rcases hpHead with rfl | ⟨t, rfl⟩
    · decide
    · rfl
  · intro c hc
    rcases List.mem_append.mp hc with hc | hc
    · obtain ⟨h1, h2, h3, h4⟩ := hpAll c hc
      exact goodPath_all_of h1 h2 h3 h4
    · rcases List.mem_singleton.mp hc with rfl
      decide

theorem goodPath_rstripSlash {p : Str} (hp : goodPath p = true)
    (hne : rstripSlash p ≠ []) : goodPath (rstripSlash p) = true := by
  obtain ⟨hpHead, hpAll⟩ := goodPath_parts hp
  simp only [goodPath, Bool.and_eq_true, List.all_eq_true]
  refine ⟨?_, ?_⟩
  · rcases hpHead with rfl | ⟨t, rfl⟩
    · exact absurd rfl hne
    · rcases rstripSlash_head '/' t with h0 | ⟨t2, h2⟩
      · exact absurd h0 hne
      · rw [h2]
        rfl
  · intro c hc
    obtain ⟨h1, h2, h3, h4⟩ := hpAll c (mem_rstripSlash hc)
    exact goodPath_all_of h1 h2 h3 h4


/-- C3 (counterexample): `canonicalize` is not idempotent on every string —
`canonicalize "a"` yields `"://a"`, which re-canonicalizes to `"://://a"` —
and the host is not lower-cased: `"HTTP://ABC.com/x"` keeps `ABC.com`
verbatim while only the scheme is lowered. -/
theorem C3_canonicalize_counterexample :
    canonicalize (ofStr "a") = some (ofStr "://a") ∧
    canonicalize (ofStr "://a") = some (ofStr "://://a") ∧
    canonicalize (ofStr "HTTP://ABC.com/x") = some (ofStr "http://ABC.com/x") := by
  decide

/-- C3: on well-formed absolute URLs `scheme://netloc path` (valid scheme
text, delimiter-free netloc, slash-initial `?`/`#`/`;`-free path),
`canonicalize` returns the trailing-slash-stripped URL with the scheme
lower-cased (the host case is preserved); appending a trailing slash, a
fragment, or a query string does not change the result; and on this
well-formed domain the result is a fixpoint of `canonicalize`. -/
theorem C3_canonicalize_properties (s n p f q : Str)
    (hs : goodScheme s = true) (hn : goodNetloc n = true)
    (hp : goodPath p = true) :
    canonicalize (s ++ ofStr "://" ++ n ++ p) =
        some (rstripSlash (s.map lowerChar ++ ofStr "://" ++ n ++ p)) ∧
    canonicalize ((s ++ ofStr "://" ++ n ++ p) ++ [ '/' ]) =
        canonicalize (s ++ ofStr "://" ++ n ++ p) ∧
    canonicalize ((s ++ ofStr "://" ++ n ++ p) ++ '#' :: f) =
        canonicalize (s ++ ofStr "://" ++ n ++ p) ∧
    canonicalize ((s ++ ofStr "://" ++ n ++ p) ++ '?' :: q) =
        canonicalize (s ++ ofStr "://" ++ n ++ p) ∧
    ∀ w, canonicalize (s ++ ofStr "://" ++ n ++ p) = some w →
        canonicalize w = some w := by
  have hbase := canonicalize_structured s n p [] hs hn hp (Or.inl rfl)
  rw [List.append_nil] at hbase
  have hls : goodScheme (s.map lowerChar) = true := goodScheme_map_lowerChar hs
  have hlsmap : (s.map lowerChar).map lowerChar = s.map lowerChar :=
    map_lowerChar_idem s
  refine ⟨hbase, ?_, ?_, ?_, ?_⟩
  · have h := canonicalize_structured s n (p ++ [ '/' ]) [] hs hn
      (goodPath_append_slash hp) (Or.inl rfl)
    rw [List.append_nil] at h
    have e1 : s ++ ofStr "://" ++ n ++ (p ++ [ '/' ]) =
        (s ++ ofStr "://" ++ n ++ p) ++ [ '/' ] := by
      simp [List.append_assoc]
    have e2 : s.map lowerChar ++ ofStr "://" ++ n ++ (p ++ [ '/' ]) =
        (s.map lowerChar ++ ofStr "://" ++ n ++ p) ++ [ '/' ] := by
      simp [List.append_assoc]
    rw [e1, e2, rstripSlash_append_slash] at h
    rw [h, hbase]
  · have h := canonicalize_structured s n p ('#' :: f) hs hn hp
      (Or.inr (Or.inl ⟨f, rfl⟩))
    rw [h, hbase]
  · have h := canonicalize_structured s n p ('?' :: q) hs hn hp
      (Or.inr (Or.inr ⟨q, rfl⟩))
    rw [h, hbase]
  · intro w hw
    rw [hbase] at hw
    have hw2 := Option.some.inj hw
    subst hw2
    rcases rstripSlash_cases p with hp0 | ⟨t, c, hc1, hc2⟩
    · -- path strips to nothing
      have hA := rstripSlash_append_all (s.map lowerChar ++ ofStr "://" ++ n) p hp0
      rw [hA]
      rcases List.eq_nil_or_concat' n with rfl | ⟨t2, c2, hn_eq⟩
      · simp only [List.append_nil]
        have hX : s.map lowerChar ++ ofStr "://" =
            ((s.map lowerChar ++ [ ':' ]) ++ [ '/' ]) ++ [ '/' ] := by
          rw [urlChunk_eq]
          simp [List.append_assoc]
        rw [hX, rstripSlash_append_slash, rstripSlash_append_slash,
          rstripSlash_eq_self_of_last _ (s.map lowerChar) ':' (by decide) rfl]
        have h := canonicalize_scheme_colon (s.map lowerChar) hls
        rwa [hlsmap] at h
      · have hc2s : ¬ c2 = '/' := by
          intro hcs
          have hx := (goodNetloc_parts hn c2 (by rw [hn_eq]; simp)).1
          rw [hcs] at hx
          exact absurd hx (by decide)
        have hstr : rstripSlash (s.map lowerChar ++ ofStr "://" ++ n) =
            s.map lowerChar ++ ofStr "://" ++ n :=
          rstripSlash_eq_self_of_last _
            ((s.map lowerChar ++ ofStr "://") ++ t2) c2 hc2s
            (by rw [hn_eq]; simp [List.append_assoc])
        rw [hstr]
        have h := canonicalize_structured (s.map lowerChar) n [] [] hls hn
          (by decide) (Or.inl rfl)
        simp only [List.append_nil] at h
        rw [hlsmap, hstr] at h
        exact h
    · -- path strips to a non-empty suffix ending in a non-slash
      have hne2 : rstripSlash p ≠ [] := by
        rw [hc1]
        simp
      have hAr := rstripSlash_append_right
        (s.map lowerChar ++ ofStr "://" ++ n) p hne2
      rw [hAr]
      have hrr : rstripSlash (rstripSlash p) = rstripSlash p :=
        rstripSlash_eq_self_of_last _ t c hc2 hc1
      have h := canonicalize_structured (s.map lowerChar) n (rstripSlash p) []
        hls hn (goodPath_rstripSlash hp hne2) (Or.inl rfl)
      simp only [List.append_nil] at h
      rw [hlsmap,
        rstripSlash_append_right _ (rstripSlash p) (by rw [hrr]; exact hne2),
        hrr] at h
      exact h

/-- C3 (witness): the properties evaluated at `http://example.com/a`. -/
theorem C3_canonicalize_properties_witness :
    canonicalize (ofStr "http" ++ ofStr "://" ++ ofStr "example.com" ++ ofStr "/a") =
      some (rstripSlash ((ofStr "http").map lowerChar ++ ofStr "://" ++
        ofStr "example.com" ++ ofStr "/a")) ∧
    canonicalize ((ofStr "http" ++ ofStr "://" ++ ofStr "example.com" ++
        ofStr "/a") ++ [ '/' ]) =
      canonicalize (ofStr "http" ++ ofStr "://" ++ ofStr "example.com" ++ ofStr "/a") ∧
    canonicalize (ofStr "http://example.com/a") = some (ofStr "http://example.com/a") := by
  have h := C3_canonicalize_properties (ofStr "http") (ofStr "example.com")
    (ofStr "/a") (ofStr "sec") (ofStr "page=2")
    (by decide) (by decide) (by decide)
  exact ⟨h.1, h.2.1, h.2.2.2.2 (ofStr "http://example.com/a") (by decide)⟩


theorem processAnchors_pages (cfg : DiscCfg) (join : Str → Str → Str)
    (cur : Str) : ∀ (ans : List (Option Str)) (st : DiscState),
    ((processAnchors cfg join cur ans st).1).pages = st.pages := by
  intro ans
  induction ans with
  | nil => intro st; rfl
  | cons a rest ih =>
    intro st
    cases a with
    | none => exact ih st
    | some h =>
      simp only [processAnchors]
      split
      · exact ih st
      · split
        · rfl
        · split
          · exact ih st
          · split
            · rfl
            · exact ih _

theorem processAnchors_fetches (cfg : DiscCfg) (join : Str → Str → Str)
    (cur : Str) : ∀ (ans : List (Option Str)) (st : DiscState),
    ((processAnchors cfg join cur ans st).1).fetches = st.fetches := by
  intro ans
  induction ans with
  | nil => intro st; rfl
  | cons a rest ih =>
    intro st
    cases a with
    | none => exact ih st
    | some h =>
      simp only [processAnchors]
      split
      · exact ih st
      · split
        · rfl
        · split
          · exact ih st
          · split
            · rfl
            · exact ih _

theorem processAnchors_seen_mono (cfg : DiscCfg) (join : Str → Str → Str)
    (cur : Str) : ∀ (ans : List (Option Str)) (st : DiscState) (x : Str),
    x ∈ st.seen → x ∈ ((processAnchors cfg join cur ans st).1).seen := by
  intro ans
  induction ans with
  | nil => intro st x hx; exact hx
  | cons a rest ih =>
    intro st x hx
    cases a with
    | none => exact ih st x hx
    | some h =>
      simp only [processAnchors]
      split
      · exact ih st x hx
      · split
        · exact hx
        · split
          · exact ih st x hx
          · split
            · exact List.mem_cons_of_mem _ hx
            · exact ih _ x (List.mem_cons_of_mem _ hx)

theorem processAnchors_inv (cfg : DiscCfg) (join : Str → Str → Str)
    (cur : Str) : ∀ (ans : List (Option Str)) (st : DiscState),
    discInv st → discInv ((processAnchors cfg join cur ans st).1) := by
  intro ans
  induction ans with
  | nil => intro st h; exact h
  | cons a rest ih =>
    intro st h
    cases a with
    | none => exact ih st h
    | some h2
    =>
      simp only [processAnchors]
      split
      · exact ih st h
      · split
        · exact h
        · split
          · exact ih st h
          · obtain ⟨hl, hnd, hsub⟩ := h
            rename_i full hfullmem hmem
            have hnotin : full ∉ st.urls := fun hin => hmem (hsub full hin)
            have hinv : discInv
                { st with
                    seen := full :: st.seen
                    urls := st.urls ++ [full]
                    ledger := st.ledger ++ [full] } := by
              refine ⟨by rw [hl], ?_, ?_⟩
              · rw [List.nodup_append]
                refine ⟨hnd, List.nodup_singleton full, ?_⟩
                intro a ha hb
                rw [List.mem_singleton] at hb
                rw [hb] at ha
                exact hnotin ha
              · intro x hx
                rcases List.mem_append.mp hx with hx | hx
                · exact List.mem_cons_of_mem _ (hsub x hx)
                · rw [List.mem_singleton] at hx
                  rw [hx]
                  exact List.mem_cons_self _ _
            split
            · exact hinv
            · exact ih _ hinv

theorem discoverLoop_of_pages_ge (cfg : DiscCfg) (env : DiscEnv)
    (hN : 0 < cfg.maxPages) : ∀ (fuel : ℕ) (st : DiscState),
    cfg.maxPages ≤ st.pages → discoverLoop cfg env fuel st = st := by
  intro fuel
  cases fuel with
  | zero => intro st _; rfl
  | succ fuel =>
    intro st hp
    simp only [discoverLoop]
    split
    · rfl
    · split
      · rfl
      · split
        · rename_i hg
          rcases hg with hg | hg
          · omega
          · omega
        · rfl

theorem discoverLoop_fetches_le (cfg : DiscCfg) (env : DiscEnv)
    (hN : 0 < cfg.maxPages) : ∀ (fuel : ℕ) (st : DiscState),
    (discoverLoop cfg env fuel st).fetches ≤
      st.fetches + (cfg.maxPages - st.pages) := by
  intro fuel
  induction fuel with
  | zero =>
    intro st
    exact Nat.le_add_right _ _
  | succ fuel ih =>
    intro st
    simp only [discoverLoop]
    split
    · exact Nat.le_add_right _ _
    · split
      · exact Nat.le_add_right _ _
      · split
        · rename_i cur hcur hcl hg
          have hlt : st.pages < cfg.maxPages := by
            rcases hg with hg | hg
            · omega
            · exact hg
          split
          · dsimp only
            omega
          · rename_i pg hf
            split
            · rename_i hcr
              have h1 := processAnchors_fetches cfg env.urljoin cur pg.anchors
                { st with fetches := st.fetches + 1 }
              dsimp only at h1 ⊢
              omega
            · split
              · rename_i hcr nu hnu
                have h1 := processAnchors_fetches cfg env.urljoin cur pg.anchors
                  { st with fetches := st.fetches + 1 }
                dsimp only at h1 ⊢
                omega
              · rename_i hcr nu hnu
                have h1 := processAnchors_fetches cfg env.urljoin cur pg.anchors
                  { st with fetches := st.fetches + 1 }
                have h2 := processAnchors_pages cfg env.urljoin cur pg.anchors
                  { st with fetches := st.fetches + 1 }
                have h3 := ih { { (processAnchors cfg env.urljoin cur pg.anchors
                  { st with fetches := st.fetches + 1 }).1
                    with pages := (processAnchors cfg env.urljoin cur pg.anchors
                      { st with fetches := st.fetches + 1 }).1.pages + 1 }
                        with current := some nu }
                dsimp only at h1 h2 h3 ⊢
                omega
        · exact Nat.le_add_right _ _


theorem discoverLoop_stable (cfg : DiscCfg) (env : DiscEnv)
    (hN : 0 < cfg.maxPages) : ∀ (f1 f2 : ℕ) (st : DiscState),
    cfg.maxPages ≤ st.pages + f1 → cfg.maxPages ≤ st.pages + f2 →
    discoverLoop cfg env f1 st = discoverLoop cfg env f2 st := by
  intro f1
  induction f1 with
  | zero =>
    intro f2 st h1 h2
    rw [discoverLoop_of_pages_ge cfg env hN f2 st (by omega)]
    rfl
  | succ f1 ih =>
    intro f2 st h1 h2
    cases f2 with
    | zero =>
      rw [discoverLoop_of_pages_ge cfg env hN (f1 + 1) st (by omega)]
      rfl
    | succ f2 =>
      simp only [discoverLoop]
      split
      · rfl
      · split
        · rfl
        · split
          · rename_i cur hcur hcl hg
            split
            · rfl
            · rename_i pg hf
              split
              · rfl
              · split
                · rfl
                · rename_i hcr nu hnu
                  apply ih
                  · have h2p := processAnchors_pages cfg env.urljoin cur
                      pg.anchors { st with fetches := st.fetches + 1 }
                    dsimp only at h2p ⊢
                    omega
                  · have h2p := processAnchors_pages cfg env.urljoin cur
                      pg.anchors { st with fetches := st.fetches + 1 }
                    dsimp only at h2p ⊢
                    omega
          · rfl

theorem discoverLoop_seen_mono (cfg : DiscCfg) (env : DiscEnv) :
    ∀ (fuel : ℕ) (st : DiscState) (x : Str),
    x ∈ st.seen → x ∈ (discoverLoop cfg env fuel st).seen := by
  intro fuel
  induction fuel with
  | zero => intro st x hx; exact hx
  | succ fuel ih =>
    intro st x hx
    simp only [discoverLoop]
    split
    · exact hx
    · split
      · exact hx
      · split
        · split
          · exact hx
          · split
            · exact processAnchors_seen_mono _ _ _ _ _ x hx
            · split
              · exact processAnchors_seen_mono _ _ _ _ _ x hx
              · exact ih _ x (processAnchors_seen_mono _ _ _ _ _ x hx)
        · exact hx

theorem discoverLoop_inv (cfg : DiscCfg) (env : DiscEnv) :
    ∀ (fuel : ℕ) (st : DiscState),
    discInv st → discInv (discoverLoop cfg env fuel st) := by
  intro fuel
  induction fuel with
  | zero => intro st h; exact h
  | succ fuel ih =>
    intro st h
    simp only [discoverLoop]
    split
    · exact h
    · split
      · exact h
      · split
        · split
          · exact h
          · split
            · exact processAnchors_inv _ _ _ _ _ h
            · split
              · exact processAnchors_inv _ _ _ _ _ h
              · exact ih _ (processAnchors_inv _ _ _ _ _ h)
        · exact h


theorem processAnchors_quiet (cfg : DiscCfg) (join : Str → Str → Str)
    (cur : Str) (hml : cfg.maxListings = 0) :
    ∀ (ans : List (Option Str)) (st1 st2 : DiscState),
    (∀ x ∈ ((processAnchors cfg join cur ans st1).1).seen, x ∈ st2.seen) →
    processAnchors cfg join cur ans st2 =
      (st2, (processAnchors cfg join cur ans st1).2) := by
  intro ans
  induction ans with
  | nil => intro st1 st2 _; rfl
  | cons a rest ih =>
    intro st1 st2 hsub
    cases a with
    | none => exact ih st1 st2 hsub
    | some h =>
      simp only [processAnchors] at hsub ⊢
      by_cases hh : h = []
      · simp only [if_pos hh] at hsub ⊢
        exact ih st1 st2 hsub
      · simp only [if_neg hh] at hsub ⊢
        cases hc : canonicalize (join cur h) with
        | none => rfl
        | some full =>
          rw [hc] at hsub
          dsimp only at hsub ⊢
          by_cases hm1 : full ∈ st1.seen
          · rw [if_pos hm1] at hsub
            have hm2 : full ∈ st2.seen :=
              hsub full (processAnchors_seen_mono cfg join cur rest st1 full hm1)
            rw [if_pos hm2, if_pos hm1]
            exact ih st1 st2 hsub
          · rw [if_neg hm1] at hsub
            rw [if_neg (show ¬ (cfg.maxListings ≠ 0 ∧
                cfg.maxListings ≤ (st1.urls ++ [full]).length) from
              by rintro ⟨hne, -⟩; exact hne hml)] at hsub
            have hm2 : full ∈ st2.seen :=
              hsub full (processAnchors_seen_mono cfg join cur rest
                { st1 with
                    seen := full :: st1.seen
                    urls := st1.urls ++ [full]
                    ledger := st1.ledger ++ [full] } full
                (List.mem_cons_self full st1.seen))
            rw [if_pos hm2, if_neg hm1,
              if_neg (show ¬ (cfg.maxListings ≠ 0 ∧
                  cfg.maxListings ≤ (st1.urls ++ [full]).length) from
                by rintro ⟨hne, -⟩; exact hne hml)]
            exact ih _ st2 hsub

theorem discoverLoop_quiet (cfg : DiscCfg) (env : DiscEnv)
    (hml : cfg.maxListings = 0) : ∀ (fuel : ℕ) (st1 st2 : DiscState),
    st2.current = st1.current → st2.pages = st1.pages →
    (∀ x ∈ (discoverLoop cfg env fuel st1).seen, x ∈ st2.seen) →
    (discoverLoop cfg env fuel st2).ledger = st2.ledger := by
  intro fuel
  induction fuel with
  | zero => intro st1 st2 _ _ _; rfl
  | succ fuel ih =>
    intro st1 st2 hcur hpg hsub
    obtain ⟨c2, p2, u2, l2, s2, f2⟩ := st2
    have hc : c2 = st1.current := hcur
    have hp : p2 = st1.pages := hpg
    subst hc
    subst hp
    cases hc1 : st1.current with
    | none =>
      simp only [discoverLoop]
    | some cur =>
      simp only [discoverLoop] at hsub ⊢
      rw [hc1] at hsub
      dsimp only at hsub ⊢
      by_cases hcl : cur = []
      · simp only [if_pos hcl] at hsub ⊢
      · simp only [if_neg hcl] at hsub ⊢
        by_cases hg : cfg.maxPages = 0 ∨ st1.pages < cfg.maxPages
        · simp only [if_pos hg] at hsub ⊢
          cases hf : env.fetch cur with
          | none => rfl
          | some pg =>
            rw [hf] at hsub
            dsimp only at hsub ⊢
            have hpre : ∀ x ∈ ((processAnchors cfg env.urljoin cur pg.anchors
                ⟨some cur, st1.pages, st1.urls, st1.ledger, st1.seen,
                  st1.fetches + 1⟩).1).seen, x ∈ s2 := by
              intro x hx
              apply hsub
              by_cases hcr : (processAnchors cfg env.urljoin cur pg.anchors
                  ⟨some cur, st1.pages, st1.urls, st1.ledger, st1.seen,
                    st1.fetches + 1⟩).2 = true
              · rw [if_pos hcr]
                exact hx
              · rw [if_neg hcr]
                cases hnu : nextUrlOf cfg env.urljoin cur pg with
                | none => exact hx
                | some nu => exact discoverLoop_seen_mono cfg env fuel _ x hx
            have hq := processAnchors_quiet cfg env.urljoin cur hml pg.anchors
              ⟨some cur, st1.pages, st1.urls, st1.ledger, st1.seen,
                st1.fetches + 1⟩
              ⟨some cur, st1.pages, u2, l2, s2, f2 + 1⟩ hpre
            rw [hq]
            dsimp only
            by_cases hcr : (processAnchors cfg env.urljoin cur pg.anchors
                ⟨some cur, st1.pages, st1.urls, st1.ledger, st1.seen,
                  st1.fetches + 1⟩).2 = true
            · simp only [if_pos hcr]
            · rw [if_neg hcr] at hsub ⊢
              cases hnu : nextUrlOf cfg env.urljoin cur pg with
              | none => rfl
              | some nu =>
                rw [hnu] at hsub
                apply ih { { (processAnchors cfg env.urljoin cur pg.anchors
                    ⟨some cur, st1.pages, st1.urls, st1.ledger, st1.seen,
                      st1.fetches + 1⟩).1
                      with pages := (processAnchors cfg env.urljoin cur pg.anchors
                        ⟨some cur, st1.pages, st1.urls, st1.ledger, st1.seen,
                          st1.fetches + 1⟩).1.pages + 1 }
                          with current := some nu }
                · rfl
                · have h2p := processAnchors_pages cfg env.urljoin cur
                    pg.anchors ⟨some cur, st1.pages, st1.urls, st1.ledger,
                      st1.seen, st1.fetches + 1⟩
                  dsimp only at h2p ⊢
                  omega
                · exact hsub
        · simp only [if_neg hg] at hsub ⊢


/-- C4: with a positive page cap `max_pages = N`, `url_discovery_routine`
fetches at most `N` pages no matter how many next links the pages offer,
and the fuel-indexed walk is already stationary at any fuel `≥ N`: the
walk terminates under that precondition. -/
theorem C4_discovery_page_cap (cfg : DiscCfg) (env : DiscEnv) (seed : Str)
    (f1 f2 : ℕ) (hN : 0 < cfg.maxPages) (h1 : cfg.maxPages ≤ f1)
    (h2 : cfg.maxPages ≤ f2) :
    (urlDiscoveryRoutine cfg env seed f1).fetches ≤ cfg.maxPages ∧
    urlDiscoveryRoutine cfg env seed f1 = urlDiscoveryRoutine cfg env seed f2 := by
  constructor
  · have h := discoverLoop_fetches_le cfg env hN f1 ⟨some seed, 0, [], [], [], 0⟩
    simpa [urlDiscoveryRoutine] using h
  · exact discoverLoop_stable cfg env hN f1 f2 ⟨some seed, 0, [], [], [], 0⟩
      (by simpa using h1) (by simpa using h2)

/-- C4 (witness): an environment whose every page has a next link; with
`max_pages = 3` the walk performs exactly three fetches and is stable in
the fuel. -/
theorem C4_discovery_page_cap_witness :
    0 < c4Cfg.maxPages ∧
    (urlDiscoveryRoutine c4Cfg c4Env (ofStr "http://s") 3).fetches ≤ c4Cfg.maxPages ∧
    urlDiscoveryRoutine c4Cfg c4Env (ofStr "http://s") 3 =
      urlDiscoveryRoutine c4Cfg c4Env (ofStr "http://s") 9 := by
  have h := C4_discovery_page_cap c4Cfg c4Env (ofStr "http://s") 3 9
    (by decide) (by decide) (by decide)
  exact ⟨by decide, h.1, h.2⟩

/-- C5 (counterexample): the routine keeps no cross-run seen-set — each
call starts from an empty `seen_local` and a truncated ledger — so a
second identical call writes the same canonical URL to the ledger again
(one new entry, not zero); only a walk explicitly seeded with the first
walk's final seen-set stays quiet. -/
theorem C5_rerun_counterexample :
    (urlDiscoveryRoutine c5Cfg c5Env (ofStr "http://s") 5).ledger =
      [ofStr "://x"] ∧
    (discoverLoop c5Cfg c5Env 5
      ⟨some (ofStr "http://s"), 0, [], [],
        (urlDiscoveryRoutine c5Cfg c5Env (ofStr "http://s") 5).seen, 0⟩).ledger =
      [] := by
  decide

/-- C5: within one run the ledger holds exactly the returned URL list,
without duplicates (the run-local seen-set deduplicates); and when no
listing cap is set, a second walk over the same pages that starts from
the first walk's final seen-set appends zero ledger entries.  (The
routine itself always restarts from an empty seen-set and truncates the
ledger, so the quiet-rerun guarantee needs that explicit seeding.) -/
theorem C5_discovery_dedup (cfg : DiscCfg) (env : DiscEnv) (seed : Str)
    (fuel : ℕ) :
    ((urlDiscoveryRoutine cfg env seed fuel).ledger =
        (urlDiscoveryRoutine cfg env seed fuel).urls ∧
      (urlDiscoveryRoutine cfg env seed fuel).urls.Nodup) ∧
    (cfg.maxListings = 0 →
      (discoverLoop cfg env fuel
        ⟨some seed, 0, [], [],
          (urlDiscoveryRoutine cfg env seed fuel).seen, 0⟩).ledger = []) := by
  constructor
  · have h := discoverLoop_inv cfg env fuel ⟨some seed, 0, [], [], [], 0⟩
      ⟨rfl, List.nodup_nil, by intro x hx; cases hx⟩
    exact ⟨h.1, h.2.1⟩
  · intro hml
    exact discoverLoop_quiet cfg env hml fuel ⟨some seed, 0, [], [], [], 0⟩
      ⟨some seed, 0, [], [],
        (urlDiscoveryRoutine cfg env seed fuel).seen, 0⟩
      rfl rfl (fun x hx => hx)

/-- C5 (witness): the dedup and seeded-rerun facts evaluated on the
one-page environment. -/
theorem C5_discovery_dedup_witness :
    ((urlDiscoveryRoutine c5Cfg c5Env (ofStr "http://s") 5).ledger =
        (urlDiscoveryRoutine c5Cfg c5Env (ofStr "http://s") 5).urls ∧
      (urlDiscoveryRoutine c5Cfg c5Env (ofStr "http://s") 5).urls.Nodup) ∧
    (discoverLoop c5Cfg c5Env 5
      ⟨some (ofStr "http://s"), 0, [], [],
        (urlDiscoveryRoutine c5Cfg c5Env (ofStr "http://s") 5).seen, 0⟩).ledger =
      [] := by
  have h := C5_discovery_dedup c5Cfg c5Env (ofStr "http://s") 5
  exact ⟨h.1, h.2 (by decide)⟩

end RealEstate
